import Mathlib

/-!
Verification of the racemus Minecraft-protocol codec.

Shallow embedding of the byte-level codec of the `racemus` repository:
variable-length integers, the segmented write buffer with insertion
points and the compression envelope, the stream reader's packet-header
path, the circular buffers, the NBT codec, the compression-threshold
configuration, and the Mojang session server hash.  Machine integers are
modelled as `Nat`/`Int` with explicit truncation, byte strings as
`List Nat` with entries below 256, and the external zlib codec as an
explicit function parameter.
-/

set_option maxHeartbeats 1000000
set_option maxRecDepth 10000

namespace Racemus

/-! ## Variable-length integers

`build_write_varint!` and `build_read_varint!` in
`racemus-binary/src/writer.rs` / `reader.rs`. -/

/-- Byte groups emitted by the loop of `build_write_varint!`: emit
`val & 0x7f`, shift `val` right by 7, and set the continuation bit
`0x80` unless the shifted value is zero.  The fuel argument only bounds
the iteration count and is never exhausted when it exceeds the value
(each iteration at least halves it); see `writeVarGo_fuel`. -/
def writeVarGo : Nat → Nat → List Nat
  | 0, _ => []
  | f + 1, v =>
    if v >>> 7 = 0 then [v &&& 127]
    else (v &&& 127 ||| 128) :: writeVarGo f (v >>> 7)

/-- Byte list produced by `build_write_varint!` for an unsigned value. -/
def writeVarNat (v : Nat) : List Nat := writeVarGo (v + 1) v

lemma writeVarGo_fuel : ∀ f v, v < f → writeVarGo f v = writeVarNat v := by
  intro f
  induction f using Nat.strong_induction_on with
  | _ f ih =>
    intro v hv
    match f, hv with
    | f' + 1, hv =>
      show writeVarGo (f' + 1) v = writeVarGo (v + 1) v
      rw [writeVarGo, writeVarGo]
      rcases eq_or_ne (v >>> 7) 0 with h | h
      · rw [if_pos h, if_pos h]
      · rw [if_neg h, if_neg h]
        have hvpos : 128 ≤ v := by
          rw [Nat.shiftRight_eq_div_pow] at h
          have h2 : (2 : Nat) ^ 7 ≤ v := (Nat.div_ne_zero_iff (by norm_num)).mp h
          omega
        have hlt : v >>> 7 < v := by
          rw [Nat.shiftRight_eq_div_pow]
          exact Nat.div_lt_self (by omega) (by norm_num)
        have h1 : writeVarGo f' (v >>> 7) = writeVarNat (v >>> 7) :=
          ih f' (by omega) _ (by omega)
        have h2 : writeVarGo v (v >>> 7) = writeVarNat (v >>> 7) :=
          ih v (by omega) _ hlt
        rw [h1, h2]

/-- Two's-complement reinterpretation `val as $unsigned` used by the
signed varint writers. -/
def toUnsignedI (w : Nat) (n : Int) : Nat := (n % ((2 : Int) ^ w)).toNat

/-- Truncating reinterpretation `res as $type` (signed) used by the
varint readers: the low `w` bits of the accumulator read back as a
two's-complement integer. -/
def toSigned (w : Nat) (v : Nat) : Int :=
  if v < 2 ^ (w - 1) then (v : Int) else (v : Int) - 2 ^ w

/-- Accumulation loop of `build_read_varint!`: `res |= (byte & 0x7f)
<< shift` in `u64` arithmetic, stop on a clear continuation bit, fail
with `InvalidVarint` once `shift` exceeds the type's bit size, fail
with `EndOfData` when the stream runs dry. -/
def readVarAux (size : Nat) : List Nat → Nat → Nat → Option (Nat × List Nat)
  | [], _, _ => none
  | b :: rest, res, shift =>
    let res := res ||| (((b &&& 127) <<< shift) % 2 ^ 64)
    if b &&& 128 = 0 then some (res, rest)
    else
      let shift := shift + 7
      if shift > size then none
      else readVarAux size rest res shift

/-- Writer `var_u16`. -/
def write_var_u16 (n : Nat) : List Nat := writeVarNat n

/-- Writer `var_u32`. -/
def write_var_u32 (n : Nat) : List Nat := writeVarNat n

/-- Writer `var_u64`. -/
def write_var_u64 (n : Nat) : List Nat := writeVarNat n

/-- Writer `var_i16`. -/
def write_var_i16 (n : Int) : List Nat := writeVarNat (toUnsignedI 16 n)

/-- Writer `var_i32`. -/
def write_var_i32 (n : Int) : List Nat := writeVarNat (toUnsignedI 32 n)

/-- Writer `var_i64`. -/
def write_var_i64 (n : Int) : List Nat := writeVarNat (toUnsignedI 64 n)

/-- Reader `var_u16` on a byte list, returning the value and the
unconsumed remainder. -/
def read_var_u16 (bytes : List Nat) : Option (Nat × List Nat) :=
  (readVarAux 16 bytes 0 0).map fun p => (p.1 % 2 ^ 16, p.2)

/-- Reader `var_u32`. -/
def read_var_u32 (bytes : List Nat) : Option (Nat × List Nat) :=
  (readVarAux 32 bytes 0 0).map fun p => (p.1 % 2 ^ 32, p.2)

/-- Reader `var_u64`. -/
def read_var_u64 (bytes : List Nat) : Option (Nat × List Nat) :=
  (readVarAux 64 bytes 0 0).map fun p => (p.1 % 2 ^ 64, p.2)

/-- Reader `var_i16`. -/
def read_var_i16 (bytes : List Nat) : Option (Int × List Nat) :=
  (readVarAux 16 bytes 0 0).map fun p => (toSigned 16 (p.1 % 2 ^ 16), p.2)

/-- Reader `var_i32`. -/
def read_var_i32 (bytes : List Nat) : Option (Int × List Nat) :=
  (readVarAux 32 bytes 0 0).map fun p => (toSigned 32 (p.1 % 2 ^ 32), p.2)

/-- Reader `var_i64`. -/
def read_var_i64 (bytes : List Nat) : Option (Int × List Nat) :=
  (readVarAux 64 bytes 0 0).map fun p => (toSigned 64 (p.1 % 2 ^ 64), p.2)

/-! ### Round-trip lemmas -/

lemma lor_shiftLeft_eq_add {a b s : Nat} (ha : a < 2 ^ s) :
    a ||| b <<< s = a + b * 2 ^ s := by
  rw [Nat.shiftLeft_eq]
  apply Nat.eq_of_testBit_eq
  intro k
  rw [Nat.testBit_lor, Nat.mul_comm b, Nat.add_comm a, Nat.testBit_mul_pow_two_add b ha,
    Nat.testBit_mul_pow_two]
  rcases lt_or_ge k s with hk | hk
  · simp [hk, Nat.not_le.mpr hk]
  · have : a.testBit k = false :=
      Nat.testBit_lt_two_pow (lt_of_lt_of_le ha (Nat.pow_le_pow_right (by norm_num) hk))
    simp [this, hk, Nat.not_lt.mpr hk]

lemma and_127_eq_mod (v : Nat) : v &&& 127 = v % 128 :=
  Nat.and_pow_two_sub_one_eq_mod v 7

lemma and_128_eq_zero {v : Nat} (h : v < 128) : v &&& 128 = 0 := by
  have h7 : v.testBit 7 = false := Nat.testBit_lt_two_pow h
  have := Nat.and_two_pow v 7
  simpa [h7] using this

lemma and_128_ne_zero {v : Nat} (h1 : 128 ≤ v) (h2 : v < 256) : v &&& 128 ≠ 0 := by
  have h7 : v.testBit 7 = true := by
    rw [Nat.testBit_to_div_mod]
    simp only [decide_eq_true_eq]
    omega
  have h := Nat.and_two_pow v 7
  rw [h7] at h
  norm_num at h
  omega

lemma lor_128 {a : Nat} (ha : a < 128) : a ||| 128 = a + 128 := by
  have h := lor_shiftLeft_eq_add (a := a) (b := 1) (s := 7) (by omega)
  norm_num [Nat.shiftLeft_eq] at h
  exact h

lemma writeVarNat_eq (v : Nat) :
    writeVarNat v = if v < 128 then [v] else (v % 128 + 128) :: writeVarNat (v / 128) := by
  show writeVarGo (v + 1) v = _
  rw [writeVarGo]
  rcases lt_or_ge v 128 with h | h
  · have hz : v >>> 7 = 0 := by
      rw [Nat.shiftRight_eq_div_pow]
      omega
    have hand : v &&& 127 = v := by rw [and_127_eq_mod]; omega
    rw [if_pos hz, if_pos h, hand]
  · have hz : ¬(v >>> 7 = 0) := by
      rw [Nat.shiftRight_eq_div_pow]
      have : 1 ≤ v / 2 ^ 7 := (Nat.one_le_div_iff (by norm_num)).mpr h
      omega
    have hand : v &&& 127 ||| 128 = v % 128 + 128 := by
      rw [and_127_eq_mod]
      exact lor_128 (Nat.mod_lt v (by norm_num))
    have hlt : v >>> 7 < v := by
      rw [Nat.shiftRight_eq_div_pow]
      exact Nat.div_lt_self (by omega) (by norm_num)
    rw [if_neg hz, if_neg (Nat.not_lt.mpr h), hand, writeVarGo_fuel v _ hlt,
      Nat.shiftRight_eq_div_pow]

lemma writeVarNat_length {k v : Nat} (hk : 1 ≤ k) (hv : v < 128 ^ k) :
    (writeVarNat v).length ≤ k := by
  induction v using Nat.strong_induction_on generalizing k with
  | _ v ih =>
    rw [writeVarNat_eq]
    rcases lt_or_ge v 128 with h | h
    · simpa [h] using hk
    · rw [if_neg (by omega)]
      have hk2 : 2 ≤ k := by
        by_contra hc
        push_neg at hc
        interval_cases k
        simp at hv
        omega
      have hrec : v / 128 < 128 ^ (k - 1) := by
        apply Nat.div_lt_of_lt_mul
        calc v < 128 ^ k := hv
          _ = 128 ^ (k - 1) * 128 := by
            rw [← Nat.pow_succ]
            congr 1
            omega
          _ = 128 * 128 ^ (k - 1) := by ring
      have := ih (v / 128) (Nat.div_lt_self (by omega) (by norm_num)) (by omega) hrec
      simp only [List.length_cons]
      omega

lemma readVarAux_writeVarNat {w : Nat} (hw : w ≤ 64) :
    ∀ v shift res rest, v < 2 ^ (w - shift) → shift ≤ w → res < 2 ^ shift →
    readVarAux w (writeVarNat v ++ rest) res shift = some (res + v * 2 ^ shift, rest) := by
  intro v
  induction v using Nat.strong_induction_on with
  | _ v ih =>
    intro shift res rest hv hshift hres
    rw [writeVarNat_eq]
    rcases lt_or_ge v 128 with h | h
    · rw [if_pos h]
      show readVarAux w (v :: rest) res shift = _
      rw [readVarAux]
      have hand : v &&& 127 = v := by rw [and_127_eq_mod]; omega
      have hsm : v <<< shift % 2 ^ 64 = v <<< shift := by
        apply Nat.mod_eq_of_lt
        rw [Nat.shiftLeft_eq]
        calc v * 2 ^ shift < 2 ^ (w - shift) * 2 ^ shift :=
              (Nat.mul_lt_mul_right (Nat.pos_pow_of_pos shift (by norm_num))).mpr hv
          _ = 2 ^ (w - shift + shift) := (pow_add 2 _ _).symm
          _ ≤ 2 ^ 64 := Nat.pow_le_pow_right (by norm_num) (by omega)
      rw [hand, hsm, and_128_eq_zero h, if_pos rfl, lor_shiftLeft_eq_add hres]
    · rw [if_neg (by omega)]
      show readVarAux w ((v % 128 + 128) :: (writeVarNat (v / 128) ++ rest)) res shift = _
      rw [readVarAux]
      have hand : (v % 128 + 128) &&& 127 = v % 128 := by
        rw [and_127_eq_mod]
        omega
      have hw8 : 8 ≤ w - shift := by
        by_contra hc
        have : 2 ^ (w - shift) ≤ 2 ^ 7 := Nat.pow_le_pow_right (by norm_num) (by omega)
        omega
      have hsm : (v % 128) <<< shift % 2 ^ 64 = (v % 128) <<< shift := by
        apply Nat.mod_eq_of_lt
        rw [Nat.shiftLeft_eq]
        calc v % 128 * 2 ^ shift < 128 * 2 ^ shift := by
              have : v % 128 < 128 := Nat.mod_lt v (by norm_num)
              exact (Nat.mul_lt_mul_right (Nat.pos_pow_of_pos shift (by norm_num))).mpr this
          _ = 2 ^ (7 + shift) := by rw [pow_add]; norm_num
          _ ≤ 2 ^ 64 := Nat.pow_le_pow_right (by norm_num) (by omega)
      rw [hand, hsm]
      rw [if_neg (and_128_ne_zero (by omega) (by omega))]
      rw [if_neg (by omega)]
      rw [lor_shiftLeft_eq_add hres]
      have hrec := ih (v / 128) (Nat.div_lt_self (by omega) (by norm_num)) (shift + 7)
        (res + v % 128 * 2 ^ shift) rest
      have h1 : v / 128 < 2 ^ (w - (shift + 7)) := by
        apply Nat.div_lt_of_lt_mul
        calc v < 2 ^ (w - shift) := hv
          _ = 2 ^ (w - (shift + 7)) * 2 ^ 7 := by
            rw [← pow_add]
            congr 1
            omega
          _ = 128 * 2 ^ (w - (shift + 7)) := by ring
      have h2 : shift + 7 ≤ w := by omega
      have h3 : res + v % 128 * 2 ^ shift < 2 ^ (shift + 7) := by
        have hm : v % 128 * 2 ^ shift ≤ 127 * 2 ^ shift :=
          Nat.mul_le_mul_right _ (by omega)
        have hp : 2 ^ (shift + 7) = 128 * 2 ^ shift := by rw [pow_add]; ring
        omega
      rw [hrec h1 h2 h3]
      congr 2
      have : v % 128 + v / 128 * 128 = v := Nat.mod_add_div' v 128
      calc res + v % 128 * 2 ^ shift + v / 128 * 2 ^ (shift + 7)
          = res + (v % 128 + v / 128 * 128) * 2 ^ shift := by rw [pow_add]; ring
        _ = res + v * 2 ^ shift := by rw [this]

lemma readVarAux_writeVarNat_zero {w : Nat} (hw : w ≤ 64) {v : Nat} (hv : v < 2 ^ w)
    (rest : List Nat) :
    readVarAux w (writeVarNat v ++ rest) 0 0 = some (v, rest) := by
  have := readVarAux_writeVarNat hw v 0 0 rest (by simpa using hv) (by omega) (by norm_num)
  simpa using this

lemma toUnsignedI_lt (w : Nat) (n : Int) : toUnsignedI w n < 2 ^ w := by
  unfold toUnsignedI
  have h1 : n % (2 : Int) ^ w < (2 : Int) ^ w := Int.emod_lt_of_pos n (by positivity)
  have h2 : (0 : Int) ≤ n % (2 : Int) ^ w := Int.emod_nonneg n (by positivity)
  have h3 : ((n % (2 : Int) ^ w).toNat : Int) < (((2 : Nat) ^ w : Nat) : Int) := by
    rw [Int.toNat_of_nonneg h2]
    push_cast
    exact h1
  exact_mod_cast h3

lemma toSigned_toUnsignedI {w : Nat} (hw : 1 ≤ w) {n : Int}
    (h1 : -(2 ^ (w - 1)) ≤ n) (h2 : n < 2 ^ (w - 1)) :
    toSigned w (toUnsignedI w n) = n := by
  have hsplit : (2 : Int) ^ w = 2 ^ (w - 1) * 2 := by
    rw [← pow_succ]
    congr 1
    omega
  have hpow : (0 : Int) < 2 ^ (w - 1) := by positivity
  unfold toSigned toUnsignedI
  rcases le_or_lt 0 n with hn | hn
  · have hmod : n % (2 : Int) ^ w = n := Int.emod_eq_of_lt hn (by omega)
    rw [hmod]
    rw [if_pos]
    · exact Int.toNat_of_nonneg hn
    · have : ((n.toNat : Int)) < ((2 ^ (w - 1) : Nat) : Int) := by
        rw [Int.toNat_of_nonneg hn]
        push_cast
        omega
      exact_mod_cast this
  · have hge : (0 : Int) ≤ n + 2 ^ w := by omega
    have hlt : n + (2 : Int) ^ w < 2 ^ w := by omega
    have hmod : n % (2 : Int) ^ w = n + 2 ^ w := by
      have key := Int.add_mul_emod_self_left (a := n) (b := (2 : Int) ^ w) (c := 1)
      simp only [mul_one] at key
      rw [← key]
      exact Int.emod_eq_of_lt hge hlt
    rw [hmod]
    rw [if_neg]
    · rw [Int.toNat_of_nonneg (by omega)]
      ring
    · intro hc
      have : ((n + 2 ^ w).toNat : Int) < ((2 ^ (w - 1) : Nat) : Int) := by exact_mod_cast hc
      rw [Int.toNat_of_nonneg (by omega)] at this
      push_cast at this
      omega

lemma toUnsignedI_le_bound {w k : Nat} (n : Int) (h : 2 ^ w ≤ 128 ^ k) :
    toUnsignedI w n < 128 ^ k := lt_of_lt_of_le (toUnsignedI_lt w n) h

/-- C3, signed 16-bit instance. -/
lemma var_i16_roundtrip (n : Int) (rest : List Nat)
    (h1 : -(2 ^ 15) ≤ n) (h2 : n < 2 ^ 15) :
    read_var_i16 (write_var_i16 n ++ rest) = some (n, rest) ∧
      (write_var_i16 n).length ≤ 3 := by
  unfold read_var_i16 write_var_i16
  have hlt := toUnsignedI_lt 16 n
  rw [readVarAux_writeVarNat_zero (by norm_num) hlt]
  constructor
  · simp only [Option.map_some']
    rw [Nat.mod_eq_of_lt hlt]
    rw [toSigned_toUnsignedI (by norm_num) h1 h2]
  · exact writeVarNat_length (by norm_num) (toUnsignedI_le_bound n (by norm_num))

/-- C3, signed 32-bit instance. -/
lemma var_i32_roundtrip (n : Int) (rest : List Nat)
    (h1 : -(2 ^ 31) ≤ n) (h2 : n < 2 ^ 31) :
    read_var_i32 (write_var_i32 n ++ rest) = some (n, rest) ∧
      (write_var_i32 n).length ≤ 5 := by
  unfold read_var_i32 write_var_i32
  have hlt := toUnsignedI_lt 32 n
  rw [readVarAux_writeVarNat_zero (by norm_num) hlt]
  constructor
  · simp only [Option.map_some']
    rw [Nat.mod_eq_of_lt hlt]
    rw [toSigned_toUnsignedI (by norm_num) h1 h2]
  · exact writeVarNat_length (by norm_num) (toUnsignedI_le_bound n (by norm_num))

/-- C3, signed 64-bit instance. -/
lemma var_i64_roundtrip (n : Int) (rest : List Nat)
    (h1 : -(2 ^ 63) ≤ n) (h2 : n < 2 ^ 63) :
    read_var_i64 (write_var_i64 n ++ rest) = some (n, rest) ∧
      (write_var_i64 n).length ≤ 10 := by
  unfold read_var_i64 write_var_i64
  have hlt := toUnsignedI_lt 64 n
  rw [readVarAux_writeVarNat_zero (by norm_num) hlt]
  constructor
  · simp only [Option.map_some']
    rw [Nat.mod_eq_of_lt hlt]
    rw [toSigned_toUnsignedI (by norm_num) h1 h2]
  · exact writeVarNat_length (by norm_num) (toUnsignedI_le_bound n (by norm_num))

/-- C3, unsigned 16-bit instance. -/
lemma var_u16_roundtrip (n : Nat) (rest : List Nat) (h : n < 2 ^ 16) :
    read_var_u16 (write_var_u16 n ++ rest) = some (n, rest) ∧
      (write_var_u16 n).length ≤ 3 := by
  unfold read_var_u16 write_var_u16
  rw [readVarAux_writeVarNat_zero (by norm_num) h]
  refine ⟨by simp [Nat.mod_eq_of_lt (show n < 65536 by omega)], ?_⟩
  exact writeVarNat_length (by norm_num) (lt_of_lt_of_le h (by norm_num))

/-- C3, unsigned 32-bit instance. -/
lemma var_u32_roundtrip (n : Nat) (rest : List Nat) (h : n < 2 ^ 32) :
    read_var_u32 (write_var_u32 n ++ rest) = some (n, rest) ∧
      (write_var_u32 n).length ≤ 5 := by
  unfold read_var_u32 write_var_u32
  rw [readVarAux_writeVarNat_zero (by norm_num) h]
  refine ⟨by simp [Nat.mod_eq_of_lt (show n < 4294967296 by omega)], ?_⟩
  exact writeVarNat_length (by norm_num) (lt_of_lt_of_le h (by norm_num))

/-- C3, unsigned 64-bit instance. -/
lemma var_u64_roundtrip (n : Nat) (rest : List Nat) (h : n < 2 ^ 64) :
    read_var_u64 (write_var_u64 n ++ rest) = some (n, rest) ∧
      (write_var_u64 n).length ≤ 10 := by
  unfold read_var_u64 write_var_u64
  rw [readVarAux_writeVarNat_zero (by norm_num) h]
  refine ⟨by simp [Nat.mod_eq_of_lt (show n < 18446744073709551616 by omega)], ?_⟩
  exact writeVarNat_length (by norm_num) (lt_of_lt_of_le h (by norm_num))

/-- C3: for every varint width (16/32/64 bits, signed and unsigned),
writing a value with `write_var_T` and reading the produced bytes back
with `read_var_T` returns the value and leaves the remainder intact,
and the encoding uses at most ceil(width/7) bytes (3, 5, 10). -/
theorem c3_varint_roundtrip :
    (∀ (n : Int) (rest : List Nat), -(2 ^ 15) ≤ n → n < 2 ^ 15 →
      read_var_i16 (write_var_i16 n ++ rest) = some (n, rest) ∧
        (write_var_i16 n).length ≤ 3) ∧
    (∀ (n : Int) (rest : List Nat), -(2 ^ 31) ≤ n → n < 2 ^ 31 →
      read_var_i32 (write_var_i32 n ++ rest) = some (n, rest) ∧
        (write_var_i32 n).length ≤ 5) ∧
    (∀ (n : Int) (rest : List Nat), -(2 ^ 63) ≤ n → n < 2 ^ 63 →
      read_var_i64 (write_var_i64 n ++ rest) = some (n, rest) ∧
        (write_var_i64 n).length ≤ 10) ∧
    (∀ (n : Nat) (rest : List Nat), n < 2 ^ 16 →
      read_var_u16 (write_var_u16 n ++ rest) = some (n, rest) ∧
        (write_var_u16 n).length ≤ 3) ∧
    (∀ (n : Nat) (rest : List Nat), n < 2 ^ 32 →
      read_var_u32 (write_var_u32 n ++ rest) = some (n, rest) ∧
        (write_var_u32 n).length ≤ 5) ∧
    (∀ (n : Nat) (rest : List Nat), n < 2 ^ 64 →
      read_var_u64 (write_var_u64 n ++ rest) = some (n, rest) ∧
        (write_var_u64 n).length ≤ 10) :=
  ⟨fun n rest h1 h2 => var_i16_roundtrip n rest h1 h2,
   fun n rest h1 h2 => var_i32_roundtrip n rest h1 h2,
   fun n rest h1 h2 => var_i64_roundtrip n rest h1 h2,
   fun n rest h => var_u16_roundtrip n rest h,
   fun n rest h => var_u32_roundtrip n rest h,
   fun n rest h => var_u64_roundtrip n rest h⟩

/-- C3 witness: the round-trip theorem applied at concrete inputs. -/
theorem c3_varint_roundtrip_witness :
    read_var_i32 (write_var_i32 (-1) ++ []) = some (-1, []) ∧
      read_var_u16 (write_var_u16 300 ++ [7]) = some (300, [7]) :=
  ⟨(c3_varint_roundtrip.2.1 (-1) [] (by norm_num) (by norm_num)).1,
   (c3_varint_roundtrip.2.2.2.1 300 [7] (by norm_num)).1⟩

/-! ## Segmented write buffer and compression envelope

`BinaryWriter` in `racemus-binary/src/writer.rs` and the packet framing
of `racemus-binary/src/proto/writer.rs`.  The byte vector is a
`List Nat`, the segment table `order` stores `none` for a pending
insertion and `some (s, e)` for a filled range `s..e`.  The sink,
cipher and scratch compression buffer are irrelevant to the framing
claims and omitted; the external zlib encoder is passed as an explicit
`compressFn` parameter. -/

/-- Handle returned by `create_insertion`: the byte-vector length at
creation time and the index of the reserved segment. -/
structure BinaryWriterInsertion where
  start : Nat
  index : Nat
deriving DecidableEq, Repr

/-- State of `BinaryWriter` relevant to framing: segment table, byte
vector and the optional compression threshold. -/
structure BinaryWriter where
  order : List (Option (Nat × Nat))
  buffer : List Nat
  compression_threshold : Option Nat
deriving DecidableEq, Repr

namespace BinaryWriter

/-- Fresh writer (`BinaryWriter::new`). -/
def new : BinaryWriter := ⟨[], [], none⟩

/-- Record the compression threshold (`allow_compression`). -/
def allow_compression (w : BinaryWriter) (threshold : Nat) : BinaryWriter :=
  { w with compression_threshold := some threshold }

/-- Threshold presence test (`compression_allowed`). -/
def compression_allowed (w : BinaryWriter) : Bool :=
  w.compression_threshold.isSome

/-- Append bytes to the vector and extend or create the trailing filled
segment (`raw_buffer`): if the last segment is filled and ends where the
new data starts, widen it, otherwise push a new filled segment. -/
def raw_buffer (w : BinaryWriter) (data : List Nat) : BinaryWriter :=
  if data.length = 0 then w
  else
    let start := w.buffer.length
    let buffer := w.buffer ++ data
    match w.order.getLast? with
    | some (some (s, e)) =>
      if e = start then
        { w with buffer, order := w.order.dropLast ++ [some (s, buffer.length)] }
      else
        { w with buffer, order := w.order ++ [some (start, buffer.length)] }
    | _ => { w with buffer, order := w.order ++ [some (start, buffer.length)] }

/-- Reserve a pending segment (`create_insertion`). -/
def create_insertion (w : BinaryWriter) : BinaryWriterInsertion × BinaryWriter :=
  (⟨w.buffer.length, w.order.length⟩, { w with order := w.order ++ [none] })

/-- Resolve an insertion (`insert_raw_buffer`): append the bytes and
overwrite the insertion's slot with the new filled range.  The slot is
overwritten unconditionally; there is no already-filled check. -/
def insert_raw_buffer (w : BinaryWriter) (ins : BinaryWriterInsertion)
    (data : List Nat) : BinaryWriter :=
  if data.length = 0 then { w with order := w.order.set ins.index (some (0, 0)) }
  else
    let start := w.buffer.length
    let buffer := w.buffer ++ data
    { w with buffer, order := w.order.set ins.index (some (start, buffer.length)) }

/-- Tentative length of everything appended after the insertion was
created (`bytes_after_insertion`). -/
def bytes_after_insertion (w : BinaryWriter) (ins : BinaryWriterInsertion) : Nat :=
  w.buffer.length - ins.start

/-- Resolve an insertion with the `var_i32` encoding of a value and
return the number of bytes written (`insert_var_i32`). -/
def insert_var_i32 (w : BinaryWriter) (ins : BinaryWriterInsertion)
    (val : Int) : Nat × BinaryWriter :=
  let b := writeVarNat (toUnsignedI 32 val)
  (b.length, w.insert_raw_buffer ins b)

/-- Byte slice `buffer[s..e]` of a filled segment. -/
def segmentSlice (buffer : List Nat) : Option (Nat × Nat) → Option (List Nat)
  | none => none
  | some (s, e) => some ((buffer.drop s).take (e - s))

/-- Bytes emitted by `flush`, segment order, without a cipher; `none`
when a segment is still pending (`PendingInsertion`). -/
def flushBytes (w : BinaryWriter) : Option (List Nat) :=
  (w.order.mapM (segmentSlice w.buffer)).map List.flatten

/-- Collapse loop of `try_compress`: sequential filled ranges after the
insertion must be contiguous; a pending segment, a gap, or an empty
suffix is an `InvalidOperation` error (`none`). -/
def collapseAux : List (Option (Nat × Nat)) → Nat × Nat → Option (Nat × Nat)
  | [], acc => some acc
  | none :: _, _ => none
  | some r :: rest, acc =>
    if r.1 = acc.2 then collapseAux rest (acc.1, r.2) else none

/-- Collapse of the whole suffix, `none` on error (also when the suffix
is empty, matching the `data_range = None` error). -/
def collapseRanges : List (Option (Nat × Nat)) → Option (Nat × Nat)
  | [] => none
  | none :: _ => none
  | some r :: rest => collapseAux rest r

/-- Conditional zlib-wrap (`try_compress`): below threshold or without
a threshold, do nothing (`Ok(None)`); on a dangling insertion after
`after`, fail (`none`, `InvalidOperation`); if the compressed output is
larger than the data, throw it away (`Ok(None)`); otherwise replace the
trailing data range with the compressed bytes, collapse the segments
into one, and return the new range length. -/
def try_compress (compressFn : List Nat → List Nat) (w : BinaryWriter)
    (after : BinaryWriterInsertion) : Option (Option Nat × BinaryWriter) :=
  match w.compression_threshold with
  | none => some (none, w)
  | some threshold =>
    if w.bytes_after_insertion after < threshold then some (none, w)
    else if after.index = w.order.length then none
    else
      match collapseRanges (w.order.drop (after.index + 1)) with
      | none => none
      | some dataRange =>
        let dataLen := dataRange.2 - dataRange.1
        let compressed := compressFn ((w.buffer.drop dataRange.1).take dataLen)
        if compressed.length > dataLen then some (none, w)
        else
          let buffer := w.buffer.take (w.buffer.length - dataLen) ++ compressed
          let order := w.order.take (after.index + 1) ++ [some (dataRange.1, buffer.length)]
          some (some (buffer.length - dataRange.1), { w with buffer, order })

end BinaryWriter

/-- Pair of insertions created by `start_packet`
(`racemus-binary/src/proto/writer.rs`). -/
structure PacketInsertion where
  uncompressed_length : Option BinaryWriterInsertion
  raw_length : BinaryWriterInsertion
deriving DecidableEq, Repr

namespace BinaryWriter

/-- Maximum length prefix (`i32::MAX`). -/
def MAX_LEN : Nat := 2 ^ 31 - 1

/-- Begin a packet (`start_packet`): with compression enabled, reserve
an `uncompressed_length` insertion before the `raw_length` insertion. -/
def start_packet (w : BinaryWriter) : PacketInsertion × BinaryWriter :=
  if w.compression_allowed then
    let u := w.create_insertion
    let r := u.2.create_insertion
    (⟨some u.1, r.1⟩, r.2)
  else
    let r := w.create_insertion
    (⟨none, r.1⟩, r.2)

/-- Finish a packet (`complete_packet`): without compression resolve
`raw_length` with the byte count; with compression attempt
`try_compress` and resolve both insertions according to the outcome.
`none` models the `LengthTooLarge` / `InvalidOperation` errors. -/
def complete_packet (compressFn : List Nat → List Nat) (w : BinaryWriter)
    (packet : PacketInsertion) : Option BinaryWriter :=
  match packet.uncompressed_length with
  | some uncompressed_length =>
    let raw_length := packet.raw_length
    let original_len := w.bytes_after_insertion raw_length
    if original_len > MAX_LEN then none
    else
      match w.try_compress compressFn raw_length with
      | none => none
      | some (some compressed_len, w1) =>
        let p := w1.insert_var_i32 raw_length (original_len : Int)
        let compressed_len := compressed_len + p.1
        some (p.2.insert_var_i32 uncompressed_length (compressed_len : Int)).2
      | some (none, w1) =>
        let p := w1.insert_var_i32 raw_length 0
        let original_len := original_len + p.1
        some (p.2.insert_var_i32 uncompressed_length (original_len : Int)).2
  | none =>
    let raw_length := packet.raw_length
    let len := w.bytes_after_insertion raw_length
    if len > MAX_LEN then none
    else some (w.insert_var_i32 raw_length (len : Int)).2

end BinaryWriter

/-- Whole framing pipeline for one packet body: fresh writer, optional
compression threshold, `start_packet`, one body append,
`complete_packet`, flush. -/
def emitPacket (compressFn : List Nat → List Nat) (threshold : Option Nat)
    (body : List Nat) : Option (List Nat) :=
  let w0 := match threshold with
    | some t => BinaryWriter.new.allow_compression t
    | none => BinaryWriter.new
  let p := w0.start_packet
  let w2 := p.2.raw_buffer body
  match w2.complete_packet compressFn p.1 with
  | none => none
  | some w3 => w3.flushBytes

/-! ### Frame shape lemmas -/

/-- Length of the varint encoding of a value. -/
def varSize (n : Nat) : Nat := (writeVarNat n).length

lemma varSize_pos (n : Nat) : 0 < varSize n := by
  unfold varSize
  rw [writeVarNat_eq]
  rcases lt_or_ge n 128 with h | h
  · simp [h]
  · rw [if_neg (by omega)]
    simp

lemma varSize_lt (n : Nat) : n < 128 ^ varSize n := by
  induction n using Nat.strong_induction_on with
  | _ n ih =>
    unfold varSize
    rw [writeVarNat_eq]
    rcases lt_or_ge n 128 with h | h
    · rw [if_pos h]
      simpa using h
    · rw [if_neg (by omega)]
      simp only [List.length_cons]
      have hrec := ih (n / 128) (Nat.div_lt_self (by omega) (by norm_num))
      have : n < 128 * 128 ^ varSize (n / 128) := by
        have h1 : n / 128 + 1 ≤ 128 ^ varSize (n / 128) := hrec
        have h2 : n < 128 * (n / 128) + 128 := by omega
        calc n < 128 * (n / 128) + 128 := h2
          _ = 128 * (n / 128 + 1) := by ring
          _ ≤ 128 * 128 ^ varSize (n / 128) := by
            exact Nat.mul_le_mul_left 128 h1
      calc n < 128 * 128 ^ varSize (n / 128) := this
        _ = 128 ^ (varSize (n / 128) + 1) := by rw [pow_succ]; ring

lemma varSize_le {n k : Nat} (hk : 1 ≤ k) (h : n < 128 ^ k) : varSize n ≤ k :=
  writeVarNat_length hk h

lemma varSize_succ_le (n : Nat) : varSize (n + 1) ≤ varSize n + 1 := by
  apply varSize_le (by have := varSize_pos n; omega)
  have h1 := varSize_lt n
  have hB : (128 : Nat) ^ (varSize n + 1) = 128 * 128 ^ varSize n := by
    rw [pow_succ]
    ring
  have hp : (1 : Nat) ≤ 128 ^ varSize n := Nat.one_le_pow _ _ (by norm_num)
  omega

lemma varSize_add_small_le {n s : Nat} (hs : s ≤ 128) : varSize (n + s) ≤ varSize n + 1 := by
  apply varSize_le (by have := varSize_pos n; omega)
  have h1 := varSize_lt n
  have hv := varSize_pos n
  have h128 : (128 : Nat) ≤ 128 ^ varSize n := by
    calc (128 : Nat) = 128 ^ 1 := (pow_one 128).symm
      _ ≤ 128 ^ varSize n := Nat.pow_le_pow_right (by norm_num) hv
  have hB : (128 : Nat) ^ (varSize n + 1) = 128 * 128 ^ varSize n := by
    rw [pow_succ]
    ring
  omega

lemma toUnsignedI_natCast {w : Nat} {n : Nat} (h : n < 2 ^ w) :
    toUnsignedI w (n : Int) = n := by
  unfold toUnsignedI
  rw [Int.emod_eq_of_lt (by positivity) (by exact_mod_cast h)]
  simp

lemma writeVarNat_length_ne_zero (v : Nat) : (writeVarNat v).length ≠ 0 :=
  Nat.pos_iff_ne_zero.mp (varSize_pos v)

/-- Emitted frame without compression: `varint(len) · body`. -/
theorem emitPacket_disabled_eq (f : List Nat → List Nat) (body : List Nat)
    (hlen : body.length ≤ BinaryWriter.MAX_LEN) :
    emitPacket f none body = some (writeVarNat body.length ++ body) := by
  rcases eq_or_ne body [] with rfl | hb
  · rfl
  · have hW2 : BinaryWriter.raw_buffer ⟨[none], [], none⟩ body =
        ⟨[none, some (0, body.length)], body, none⟩ := by
      rw [BinaryWriter.raw_buffer, if_neg (by simpa using hb)]
      rfl
    have hn32 : body.length < 2 ^ 32 := by
      have : BinaryWriter.MAX_LEN = 2 ^ 31 - 1 := rfl
      omega
    have hcp : BinaryWriter.complete_packet f
        ⟨[none, some (0, body.length)], body, none⟩ ⟨none, ⟨0, 0⟩⟩ =
        some ⟨[some (body.length, body.length + varSize body.length),
               some (0, body.length)],
              body ++ writeVarNat body.length, none⟩ := by
      simp only [BinaryWriter.complete_packet, BinaryWriter.bytes_after_insertion,
        BinaryWriter.insert_var_i32, BinaryWriter.insert_raw_buffer]
      rw [if_neg (by simpa using Nat.not_lt.mpr hlen)]
      simp only [Nat.sub_zero]
      rw [toUnsignedI_natCast hn32]
      rw [if_neg (by simpa using writeVarNat_length_ne_zero body.length)]
      simp [varSize, List.set]
    have hfl : BinaryWriter.flushBytes
        ⟨[some (body.length, body.length + varSize body.length),
          some (0, body.length)],
         body ++ writeVarNat body.length, none⟩ =
        some (writeVarNat body.length ++ body) := by
      simp only [BinaryWriter.flushBytes, List.mapM_cons, List.mapM_nil,
        BinaryWriter.segmentSlice]
      rw [Nat.add_sub_cancel_left, Nat.sub_zero, List.drop_zero, List.drop_left]
      simp [varSize, List.take_left]
    show (match BinaryWriter.complete_packet f
        (BinaryWriter.raw_buffer ⟨[none], [], none⟩ body) ⟨none, ⟨0, 0⟩⟩ with
      | none => none
      | some w3 => w3.flushBytes) = _
    rw [hW2, hcp]
    exact hfl

lemma toUnsignedI_zero (w : Nat) : toUnsignedI w 0 = 0 := by
  simp [toUnsignedI]

lemma writeVarNat_zero : writeVarNat 0 = [0] := rfl

lemma raw_buffer_enabled_eq {t : Nat} {body : List Nat} (hb : body ≠ []) :
    BinaryWriter.raw_buffer ⟨[none, none], [], some t⟩ body =
      ⟨[none, none, some (0, body.length)], body, some t⟩ := by
  rw [BinaryWriter.raw_buffer, if_neg (by simpa using hb)]
  rfl

lemma try_compress_fallback_eq {f : List Nat → List Nat} {t : Nat} {body : List Nat}
    (hfb : body.length < t ∨ body.length < (f body).length) :
    BinaryWriter.try_compress f ⟨[none, none, some (0, body.length)], body, some t⟩
      ⟨0, 1⟩ =
      some (none, ⟨[none, none, some (0, body.length)], body, some t⟩) := by
  simp only [BinaryWriter.try_compress, BinaryWriter.bytes_after_insertion, Nat.sub_zero]
  rcases Nat.lt_or_ge body.length t with h | h
  · rw [if_pos h]
  · rw [if_neg (Nat.not_lt.mpr h)]
    rw [if_neg (by simp)]
    simp only [List.drop_succ_cons, List.drop_zero, BinaryWriter.collapseRanges,
      BinaryWriter.collapseAux, Nat.sub_zero, List.drop_zero, List.take_length]
    rw [if_pos]
    rcases hfb with h2 | h2
    · omega
    · exact h2

lemma try_compress_accept_eq {f : List Nat → List Nat} {t : Nat} {body : List Nat}
    (ht : t ≤ body.length)
    (hc : (f body).length ≤ body.length) :
    BinaryWriter.try_compress f ⟨[none, none, some (0, body.length)], body, some t⟩
      ⟨0, 1⟩ =
      some (some (f body).length,
        ⟨[none, none, some (0, (f body).length)], f body, some t⟩) := by
  simp only [BinaryWriter.try_compress, BinaryWriter.bytes_after_insertion, Nat.sub_zero]
  rw [if_neg (Nat.not_lt.mpr ht)]
  rw [if_neg (by simp)]
  simp only [List.drop_succ_cons, List.drop_zero, BinaryWriter.collapseRanges,
    BinaryWriter.collapseAux, Nat.sub_zero, List.take_length]
  rw [if_neg (Nat.not_lt.mpr hc)]
  simp [Nat.sub_self]

/-- Emitted frame with compression enabled on the fallback branch
(below threshold, or deflate produced a larger output):
`varint(len+1) · 0x00 · body`. -/
theorem emitPacket_fallback_eq (f : List Nat → List Nat) (t : Nat) (body : List Nat)
    (hb : body ≠ []) (hlen : body.length ≤ BinaryWriter.MAX_LEN)
    (hfb : body.length < t ∨ body.length < (f body).length) :
    emitPacket f (some t) body =
      some (writeVarNat (body.length + 1) ++ 0 :: body) := by
  have hn32 : body.length + 1 < 2 ^ 32 := by
    have : BinaryWriter.MAX_LEN = 2 ^ 31 - 1 := rfl
    omega
  have hins1 : BinaryWriter.insert_var_i32
      ⟨[none, none, some (0, body.length)], body, some t⟩ ⟨0, 1⟩ 0 =
      (1, ⟨[none, some (body.length, body.length + 1), some (0, body.length)],
           body ++ [0], some t⟩) := by
    rw [BinaryWriter.insert_var_i32]
    rw [toUnsignedI_zero, writeVarNat_zero, BinaryWriter.insert_raw_buffer]
    rw [if_neg (by norm_num)]
    simp [List.set]
  have hins2 : BinaryWriter.insert_var_i32
      ⟨[none, some (body.length, body.length + 1), some (0, body.length)],
       body ++ [0], some t⟩ ⟨0, 0⟩ ((body.length + 1 : Nat) : Int) =
      (varSize (body.length + 1),
       ⟨[some (body.length + 1, body.length + 1 + varSize (body.length + 1)),
         some (body.length, body.length + 1), some (0, body.length)],
        (body ++ [0]) ++ writeVarNat (body.length + 1), some t⟩) := by
    rw [BinaryWriter.insert_var_i32]
    rw [toUnsignedI_natCast hn32, BinaryWriter.insert_raw_buffer]
    rw [if_neg (by simpa using writeVarNat_length_ne_zero (body.length + 1))]
    simp [varSize, List.set]
    omega
  have hcp : BinaryWriter.complete_packet f
      ⟨[none, none, some (0, body.length)], body, some t⟩ ⟨some ⟨0, 0⟩, ⟨0, 1⟩⟩ =
      some ⟨[some (body.length + 1, body.length + 1 + varSize (body.length + 1)),
             some (body.length, body.length + 1), some (0, body.length)],
            (body ++ [0]) ++ writeVarNat (body.length + 1), some t⟩ := by
    simp only [BinaryWriter.complete_packet, BinaryWriter.bytes_after_insertion,
      Nat.sub_zero]
    rw [if_neg (by simpa using Nat.not_lt.mpr hlen)]
    simp only [try_compress_fallback_eq hfb, hins1, hins2]
  have hfl : BinaryWriter.flushBytes
      ⟨[some (body.length + 1, body.length + 1 + varSize (body.length + 1)),
        some (body.length, body.length + 1), some (0, body.length)],
       (body ++ [0]) ++ writeVarNat (body.length + 1), some t⟩ =
      some (writeVarNat (body.length + 1) ++ 0 :: body) := by
    simp only [BinaryWriter.flushBytes, List.mapM_cons, List.mapM_nil,
      BinaryWriter.segmentSlice, Nat.add_sub_cancel_left, Nat.sub_zero, List.drop_zero]
    rw [@List.drop_left' _ (body ++ [0]) _ _ (by simp)]
    rw [List.append_assoc body [0] (writeVarNat (body.length + 1))]
    rw [@List.drop_left' _ body _ _ rfl]
    rw [@List.take_left' _ body _ _ rfl]
    simp [varSize]
  show (match BinaryWriter.complete_packet f
      (BinaryWriter.raw_buffer ⟨[none, none], [], some t⟩ body) ⟨some ⟨0, 0⟩, ⟨0, 1⟩⟩ with
    | none => none
    | some w3 => w3.flushBytes) = _
  rw [raw_buffer_enabled_eq hb, hcp]
  exact hfl

/-- Emitted frame with compression enabled when the compressed output
is accepted (threshold met and output not larger than the body):
`varint(clen + varint_size(len)) · varint(len) · deflate(body)`. -/
theorem emitPacket_compressed_eq (f : List Nat → List Nat) (t : Nat) (body : List Nat)
    (hb : body ≠ []) (hlen : body.length ≤ BinaryWriter.MAX_LEN)
    (ht : t ≤ body.length) (hc : (f body).length ≤ body.length) :
    emitPacket f (some t) body =
      some (writeVarNat ((f body).length + varSize body.length) ++
        (writeVarNat body.length ++ f body)) := by
  have hn32 : body.length < 2 ^ 32 := by
    have : BinaryWriter.MAX_LEN = 2 ^ 31 - 1 := rfl
    omega
  have hvs5 : varSize body.length ≤ 5 := by
    apply varSize_le (by norm_num)
    have : BinaryWriter.MAX_LEN < 128 ^ 5 := by
      rw [show BinaryWriter.MAX_LEN = 2 ^ 31 - 1 from rfl]
      norm_num
    omega
  have hcu32 : (f body).length + varSize body.length < 2 ^ 32 := by
    have : BinaryWriter.MAX_LEN = 2 ^ 31 - 1 := rfl
    omega
  have hins1 : BinaryWriter.insert_var_i32
      ⟨[none, none, some (0, (f body).length)], f body, some t⟩ ⟨0, 1⟩
      ((body.length : Nat) : Int) =
      (varSize body.length,
       ⟨[none, some ((f body).length, (f body).length + varSize body.length),
         some (0, (f body).length)],
        f body ++ writeVarNat body.length, some t⟩) := by
    rw [BinaryWriter.insert_var_i32]
    rw [toUnsignedI_natCast hn32, BinaryWriter.insert_raw_buffer]
    rw [if_neg (by simpa using writeVarNat_length_ne_zero body.length)]
    simp [varSize, List.set]
  have hins2 : BinaryWriter.insert_var_i32
      ⟨[none, some ((f body).length, (f body).length + varSize body.length),
        some (0, (f body).length)],
       f body ++ writeVarNat body.length, some t⟩ ⟨0, 0⟩
      (((f body).length + varSize body.length : Nat) : Int) =
      (varSize ((f body).length + varSize body.length),
       ⟨[some ((f body).length + varSize body.length,
           (f body).length + varSize body.length +
             varSize ((f body).length + varSize body.length)),
         some ((f body).length, (f body).length + varSize body.length),
         some (0, (f body).length)],
        (f body ++ writeVarNat body.length) ++
          writeVarNat ((f body).length + varSize body.length), some t⟩) := by
    rw [BinaryWriter.insert_var_i32]
    rw [toUnsignedI_natCast hcu32, BinaryWriter.insert_raw_buffer]
    rw [if_neg (by simpa using
      writeVarNat_length_ne_zero ((f body).length + varSize body.length))]
    simp [varSize, List.set]
    omega
  have hcp : BinaryWriter.complete_packet f
      ⟨[none, none, some (0, body.length)], body, some t⟩ ⟨some ⟨0, 0⟩, ⟨0, 1⟩⟩ =
      some ⟨[some ((f body).length + varSize body.length,
               (f body).length + varSize body.length +
                 varSize ((f body).length + varSize body.length)),
             some ((f body).length, (f body).length + varSize body.length),
             some (0, (f body).length)],
            (f body ++ writeVarNat body.length) ++
              writeVarNat ((f body).length + varSize body.length), some t⟩ := by
    simp only [BinaryWriter.complete_packet, BinaryWriter.bytes_after_insertion,
      Nat.sub_zero]
    rw [if_neg (by simpa using Nat.not_lt.mpr hlen)]
    simp only [try_compress_accept_eq ht hc, hins1, hins2]
  have hfl : BinaryWriter.flushBytes
      ⟨[some ((f body).length + varSize body.length,
          (f body).length + varSize body.length +
            varSize ((f body).length + varSize body.length)),
        some ((f body).length, (f body).length + varSize body.length),
        some (0, (f body).length)],
       (f body ++ writeVarNat body.length) ++
         writeVarNat ((f body).length + varSize body.length), some t⟩ =
      some (writeVarNat ((f body).length + varSize body.length) ++
        (writeVarNat body.length ++ f body)) := by
    simp only [BinaryWriter.flushBytes, List.mapM_cons, List.mapM_nil,
      BinaryWriter.segmentSlice, Nat.add_sub_cancel_left, Nat.sub_zero, List.drop_zero]
    rw [@List.drop_left' _ (f body ++ writeVarNat body.length) _ _ (by simp [varSize])]
    rw [List.append_assoc (f body) (writeVarNat body.length)
      (writeVarNat ((f body).length + varSize body.length))]
    rw [@List.drop_left' _ (f body) _ _ rfl]
    rw [@List.take_left' _ (f body) _ _ rfl]
    rw [@List.take_left' _ (writeVarNat body.length) _ _ (by simp [varSize])]
    simp [varSize]
  show (match BinaryWriter.complete_packet f
      (BinaryWriter.raw_buffer ⟨[none, none], [], some t⟩ body) ⟨some ⟨0, 0⟩, ⟨0, 1⟩⟩ with
    | none => none
    | some w3 => w3.flushBytes) = _
  rw [raw_buffer_enabled_eq hb, hcp]
  exact hfl

lemma length_writeVarNat (v : Nat) : (writeVarNat v).length = varSize v := rfl

lemma varSize_le_five {n : Nat} (hlen : n ≤ BinaryWriter.MAX_LEN) : varSize n ≤ 5 := by
  apply varSize_le (by norm_num)
  have : BinaryWriter.MAX_LEN < 128 ^ 5 := by
    rw [show BinaryWriter.MAX_LEN = 2 ^ 31 - 1 from rfl]
    norm_num
  omega

/-- C5 (amended): with compression enabled and the body at or above the
threshold, `complete_packet` replaces the body with its compressed form
exactly when the compressed output is NOT LARGER than the body (the
code's test is `compressed > original → fall back`, so an equal-size
output is still accepted); only a strictly larger output falls back to
the raw body with `uncompressed_length = 0`. -/
theorem c5_compress_accept_iff_not_larger (f : List Nat → List Nat) (t : Nat)
    (body : List Nat) (hb : body ≠ [])
    (hlen : body.length ≤ BinaryWriter.MAX_LEN) (ht : t ≤ body.length) :
    emitPacket f (some t) body =
      some (if (f body).length ≤ body.length then
        writeVarNat ((f body).length + varSize body.length) ++
          (writeVarNat body.length ++ f body)
      else
        writeVarNat (body.length + 1) ++ 0 :: body) := by
  rcases le_or_lt (f body).length body.length with hc | hc
  · rw [emitPacket_compressed_eq f t body hb hlen ht hc, if_pos hc]
  · rw [emitPacket_fallback_eq f t body hb hlen (Or.inr hc), if_neg (Nat.not_le.mpr hc)]

/-- C5 witness: the theorem applied at a concrete shrinking compressor
(3-byte body compressed to 1 byte, threshold 1). -/
theorem c5_compress_accept_iff_not_larger_witness :
    emitPacket (fun _ => [9]) (some 1) [7, 7, 7] =
      some (if ((fun _ => ([9] : List Nat)) [7, 7, 7]).length ≤
          ([7, 7, 7] : List Nat).length then
        writeVarNat (((fun _ => ([9] : List Nat)) [7, 7, 7]).length +
            varSize ([7, 7, 7] : List Nat).length) ++
          (writeVarNat ([7, 7, 7] : List Nat).length ++ (fun _ => ([9] : List Nat)) [7, 7, 7])
      else
        writeVarNat (([7, 7, 7] : List Nat).length + 1) ++ 0 :: [7, 7, 7]) :=
  c5_compress_accept_iff_not_larger (fun _ => [9]) 1 [7, 7, 7] (by decide)
    (by decide) (by decide)

/-- C5 counterexample to the claim as stated: a compressor whose output
has exactly the body's size is accepted (frame `[2, 1, 97]`, compressed
framing) although the output is not strictly smaller; the claim instead
demands the raw fallback frame `[2, 0, 97]`. -/
theorem c5_equal_size_counterexample :
    emitPacket (fun l => l) (some 1) [97] = some [2, 1, 97] ∧
      ¬ ((fun (l : List Nat) => l) [97]).length < ([97] : List Nat).length ∧
      some [2, 1, 97] ≠ some (writeVarNat (([97] : List Nat).length + 1) ++ 0 :: [97]) := by
  refine ⟨by decide, by decide, by decide⟩

/-- C2 (amended): the frame emitted with compression enabled is at most
the frame emitted with compression disabled plus the overhead of the
`uncompressed_length` field: `varint_size(body_len) + 1` bytes. -/
theorem c2_compression_overhead_bound (f : List Nat → List Nat) (t : Nat)
    (body : List Nat) (hb : body ≠ [])
    (hlen : body.length ≤ BinaryWriter.MAX_LEN) :
    ∃ fe fd, emitPacket f (some t) body = some fe ∧
      emitPacket f none body = some fd ∧
      fe.length ≤ fd.length + varSize body.length + 1 := by
  have hd := emitPacket_disabled_eq f body hlen
  have hvpos := varSize_pos body.length
  rcases Nat.lt_or_ge body.length t with hlt | hge
  · refine ⟨_, _, emitPacket_fallback_eq f t body hb hlen (Or.inl hlt), hd, ?_⟩
    simp only [List.length_append, List.length_cons, length_writeVarNat]
    have h1 := varSize_succ_le body.length
    omega
  · rcases le_or_lt (f body).length body.length with hc | hc
    · refine ⟨_, _, emitPacket_compressed_eq f t body hb hlen hge hc, hd, ?_⟩
      simp only [List.length_append, length_writeVarNat]
      have h1 : varSize ((f body).length + varSize body.length) ≤
          varSize body.length + 1 := by
        apply varSize_le (by omega)
        have hA := varSize_lt body.length
        have h128 : (128 : Nat) ≤ 128 ^ varSize body.length := by
          calc (128 : Nat) = 128 ^ 1 := (pow_one 128).symm
            _ ≤ 128 ^ varSize body.length := Nat.pow_le_pow_right (by norm_num) hvpos
        have hB : (128 : Nat) ^ (varSize body.length + 1) =
            128 * 128 ^ varSize body.length := by
          rw [pow_succ]
          ring
        have hv5 := varSize_le_five hlen
        omega
      omega
    · refine ⟨_, _, emitPacket_fallback_eq f t body hb hlen (Or.inr hc), hd, ?_⟩
      simp only [List.length_append, List.length_cons, length_writeVarNat]
      have h1 := varSize_succ_le body.length
      omega

/-- C2 witness: the bound applied to the 4-byte body `"smol"` with an
identity compressor and threshold 5. -/
theorem c2_compression_overhead_bound_witness :
    ∃ fe fd, emitPacket (fun l => l) (some 5) [115, 109, 111, 108] = some fe ∧
      emitPacket (fun l => l) none [115, 109, 111, 108] = some fd ∧
      fe.length ≤ fd.length + varSize ([115, 109, 111, 108] : List Nat).length + 1 :=
  c2_compression_overhead_bound (fun l => l) 5 [115, 109, 111, 108]
    (by decide) (by decide)

/-- C2 counterexample to the claim as stated: for the body `"smol"`
below the threshold, the enabled frame `05 00 73 6D 6F 6C` (6 bytes) is
strictly longer than the disabled frame `04 73 6D 6F 6C` (5 bytes). -/
theorem c2_smol_counterexample :
    emitPacket (fun l => l) (some 5) [115, 109, 111, 108] =
        some [5, 0, 115, 109, 111, 108] ∧
      emitPacket (fun l => l) none [115, 109, 111, 108] =
        some [4, 115, 109, 111, 108] ∧
      ¬ ([5, 0, 115, 109, 111, 108] : List Nat).length ≤
          ([4, 115, 109, 111, 108] : List Nat).length := by
  refine ⟨by decide, by decide, by decide⟩

/-- C6 (amended): resolving an insertion appends the bytes to the byte
vector and overwrites the insertion's slot with the new filled range,
UNCONDITIONALLY: `insert_raw_buffer` contains no already-filled check
and cannot fail with `InvalidOperation`; a second resolve of the same
slot silently overwrites it.  Single resolution is enforced only by the
Rust API consuming the insertion by value. -/
theorem c6_insert_raw_buffer_semantics (w : BinaryWriter) (ins : BinaryWriterInsertion)
    (data : List Nat) (hd : data ≠ []) :
    (w.insert_raw_buffer ins data).buffer = w.buffer ++ data ∧
      (w.insert_raw_buffer ins data).order =
        w.order.set ins.index
          (some (w.buffer.length, w.buffer.length + data.length)) := by
  rw [BinaryWriter.insert_raw_buffer, if_neg (by simpa using hd)]
  simp

/-- C6 witness: the semantics applied to a writer with one resolved
insertion. -/
theorem c6_insert_raw_buffer_semantics_witness :
    (BinaryWriter.insert_raw_buffer ⟨[none], [], none⟩ ⟨0, 0⟩ [1]).buffer =
        [] ++ [1] ∧
      (BinaryWriter.insert_raw_buffer ⟨[none], [], none⟩ ⟨0, 0⟩ [1]).order =
        [none].set 0 (some (([] : List Nat).length, ([] : List Nat).length + [1].length)) :=
  c6_insert_raw_buffer_semantics ⟨[none], [], none⟩ ⟨0, 0⟩ [1] (by decide)

/-- C6 counterexample to the claim as stated: resolving the same
insertion twice does not fail; the second `insert_raw_buffer` succeeds,
appends its bytes and repoints the segment at them, and a subsequent
flush emits the second bytes. -/
theorem c6_double_resolve_counterexample :
    ((BinaryWriter.insert_raw_buffer ⟨[none], [], none⟩ ⟨0, 0⟩
        [1]).insert_raw_buffer ⟨0, 0⟩ [2]).order = [some (1, 2)] ∧
      ((BinaryWriter.insert_raw_buffer ⟨[none], [], none⟩ ⟨0, 0⟩
        [1]).insert_raw_buffer ⟨0, 0⟩ [2]).buffer = [1, 2] ∧
      ((BinaryWriter.insert_raw_buffer ⟨[none], [], none⟩ ⟨0, 0⟩
        [1]).insert_raw_buffer ⟨0, 0⟩ [2]).flushBytes = some [2] := by
  refine ⟨by decide, by decide, by decide⟩

/-! ## Stream reader packet-header path

`BinaryReader` in `racemus-binary/src/reader.rs` and `packet_header` in
`racemus-binary/src/proto/reader.rs`.  The backing buffer and the byte
source are merged into one byte list (`data(n)` fills from the source
until `n` bytes are available, so the merged list is observationally
equivalent); `none` models the reader errors (`EndOfData`,
`ReadPastPacket`, `InvalidVarint`, `InvalidLengthPrefix`). -/

/-- Reader state: remaining stream bytes, the current-packet byte
budget (`current_len`), and the compression flag set by
`allow_compression`. -/
structure RState where
  bytes : List Nat
  current_len : Option Nat
  allow_compression : Bool
deriving DecidableEq, Repr

/-- Budget check of `validate_length`: `true` means the
`ReadPastPacket` error fires. -/
def RState.budgetExceeded (s : RState) (count : Nat) : Bool :=
  match s.current_len with
  | some l => decide (l < count)
  | none => false

/-- One byte via `fix_u8` (`data(1)` then `consume(1)`): validate the
budget, pull the byte, decrement the budget. -/
def readU8 (s : RState) : Option (Nat × RState) :=
  if s.budgetExceeded 1 then none
  else
    match s.bytes with
    | [] => none
    | b :: rest =>
      some (b, ⟨rest, s.current_len.map (· - 1), s.allow_compression⟩)

/-- Loop of the reader's `var_i32` (`build_read_varint!` with the
budget threaded through `fix_u8`).  The fuel bounds the iterations;
six is never exhausted because the loop reads at most five bytes
before the `shift > 32` check fails. -/
def rvarI32Go : Nat → RState → Nat → Nat → Option (Int × RState)
  | 0, _, _, _ => none
  | f + 1, s, res, shift =>
    match readU8 s with
    | none => none
    | some (b, s1) =>
      let res := res ||| (((b &&& 127) <<< shift) % 2 ^ 64)
      if b &&& 128 = 0 then some (toSigned 32 (res % 2 ^ 32), s1)
      else if shift + 7 > 32 then none
      else rvarI32Go f s1 res (shift + 7)

/-- Reader `var_i32` on a reader state. -/
def rvar_i32 (s : RState) : Option (Int × RState) := rvarI32Go 6 s 0 0

/-- Length-prefix read (`len_var_i32`): non-negative varint, optional
upper bound, then `validate_length`. -/
def len_var_i32 (s : RState) (maxLen : Option Nat) : Option (Nat × RState) :=
  match rvar_i32 s with
  | none => none
  | some (count, s1) =>
    if count < 0 then none
    else
      let c := count.toNat
      if (match maxLen with | some m => decide (m < c) | none => false) then none
      else if s1.budgetExceeded c then none
      else some (c, s1)

/-- Skip to the next frame boundary (`consume_remainder`): drop any
unread bytes of the current body; `EndOfData` if the stream ends
first.  The budget field ends at `some 0`, as in the source. -/
def consume_remainder (s : RState) : Option RState :=
  match s.current_len with
  | none => some s
  | some l =>
    if l = 0 then some s
    else if l ≤ s.bytes.length then
      some ⟨s.bytes.drop l, some 0, s.allow_compression⟩
    else none

/-- `packet_header` of `racemus-binary/src/proto/reader.rs`: consume
the remainder, clear the budget, read the outer `length`, set the
budget to it, read and return `packet_id`.  Note: the function never
consults `allow_compression` and never reads an `uncompressed_length`
field or calls `decompress`. -/
def packet_header (s : RState) : Option (Int × RState) :=
  match consume_remainder s with
  | none => none
  | some s1 =>
    let s2 : RState := ⟨s1.bytes, none, s1.allow_compression⟩
    match len_var_i32 s2 none with
    | none => none
    | some (count, s3) =>
      rvar_i32 ⟨s3.bytes, some count, s3.allow_compression⟩

/-- C1: with compression enabled, `packet_header` on the compressed
frame `03 00 01 15` (`length = 3`, `uncompressed_length = 0`,
`packet_id = 1`, body `15`) returns packet id 0 — it reads the
`uncompressed_length` byte as the packet id, ignoring the compression
flag entirely (the result is byte-for-byte the one obtained with the
flag off); `decompress` is never invoked by `packet_header`.  The
claimed behaviour would return packet id 1. -/
theorem c1_packet_header_ignores_compression :
    packet_header ⟨[3, 0, 1, 21], none, true⟩ =
        some (0, ⟨[1, 21], some 2, true⟩) ∧
      packet_header ⟨[3, 0, 1, 21], none, false⟩ =
        some (0, ⟨[1, 21], some 2, false⟩) ∧
      (0 : Int) ≠ 1 := by
  refine ⟨by decide, by decide, by decide⟩

/-! ## Circular buffer

`Buffer` in `racemus-binary/src/circular/mod.rs`.  Its doc comment
states the invariant `0 ≤ position ≤ end ≤ capacity`.  The field `end`
is a Lean keyword and is embedded as `endPos`. -/

/-- Circular buffer state: backing memory, capacity, and the data
window `position..end`. -/
structure CircBuffer where
  memory : List Nat
  capacity : Nat
  position : Nat
  endPos : Nat
deriving DecidableEq, Repr

namespace CircBuffer

/-- `with_capacity`: zero-filled memory, empty window. -/
def withCapacity (capacity : Nat) : CircBuffer :=
  ⟨List.replicate capacity 0, capacity, 0, 0⟩

/-- `available_data` = `end - position`. -/
def available_data (b : CircBuffer) : Nat := b.endPos - b.position

/-- `available_space` = `capacity - end`. -/
def available_space (b : CircBuffer) : Nat := b.capacity - b.endPos

/-- `shift`: move `memory[position..end]` to the origin (memmove
semantics: bytes past the moved block keep their old values). -/
def shift (b : CircBuffer) : CircBuffer :=
  if b.position = 0 then b
  else
    let len := b.endPos - b.position
    ⟨(b.memory.drop b.position).take len ++ b.memory.drop len,
     b.capacity, 0, len⟩

/-- `consume`: advance `position`, shifting once it crosses
`capacity / 2`. -/
def consume (b : CircBuffer) (count : Nat) : Nat × CircBuffer :=
  let cnt := min count b.available_data
  let b := { b with position := b.position + cnt }
  (cnt, if b.capacity / 2 < b.position then b.shift else b)

/-- `consume_noshift`. -/
def consume_noshift (b : CircBuffer) (count : Nat) : Nat × CircBuffer :=
  let cnt := min count b.available_data
  (cnt, { b with position := b.position + cnt })

/-- `fill`: advance `end`, shifting when space runs low. -/
def fill (b : CircBuffer) (count : Nat) : Nat × CircBuffer :=
  let cnt := min count b.available_space
  let b := { b with endPos := b.endPos + cnt }
  (cnt, if b.available_space < b.available_data + cnt then b.shift else b)

/-- `grow`: `Vec::resize(new_size, 0)` when the capacity increases. -/
def grow (b : CircBuffer) (newSize : Nat) : Bool × CircBuffer :=
  if newSize ≤ b.capacity then (false, b)
  else
    (true, ⟨b.memory ++ List.replicate (newSize - b.memory.length) 0,
      newSize, b.position, b.endPos⟩)

/-- The `Write` impl: copy into `space()`, then `fill`. -/
def write (b : CircBuffer) (data : List Nat) : Nat × CircBuffer :=
  let k := min data.length b.available_space
  let b := { b with
    memory := b.memory.take b.endPos ++ data.take k ++ b.memory.drop (b.endPos + k) }
  b.fill k

/-- `replace_slice`: splice `data` over the sub-range `range` of the
data window, re-pad the vector to `capacity`, and move `end` by the
length difference.  The guard is the one in the source:
`range.end > available_data || position + range.start + data_len >
capacity`. -/
def replace_slice (b : CircBuffer) (r : Nat × Nat) (data : List Nat) :
    Option (Nat × CircBuffer) :=
  let dataLen := data.length
  if b.available_data < r.2 ∨ b.capacity < b.position + r.1 + dataLen then none
  else
    let start := b.position + r.1
    let removeLen := r.2 - r.1
    let spliced := b.memory.take start ++ data ++ b.memory.drop (b.position + r.2)
    let memory := spliced.take b.capacity ++
      List.replicate (b.capacity - spliced.length) 0
    let endPos := if removeLen < dataLen then b.endPos + (dataLen - removeLen)
      else b.endPos - (removeLen - dataLen)
    let b := { b with memory, endPos }
    some (b.available_data, b)

end CircBuffer

/-- C9: `replace_slice` can break the documented invariant
`position ≤ end ≤ capacity`.  On a full one-byte buffer, replacing the
empty range `0..0` with one byte passes the guard (`position +
range.start + data_len = 1 ≤ capacity`) yet sets `end = 2 >
capacity = 1`; the Rust original performs the matching out-of-bounds
`splice`/copy.  The claim that every operation preserves the invariant
is false on the code. -/
theorem c9_replace_slice_violates_invariant :
    (CircBuffer.withCapacity 1).write [7] = (1, ⟨[7], 1, 0, 1⟩) ∧
      CircBuffer.replace_slice ⟨[7], 1, 0, 1⟩ (0, 0) [9] =
        some (2, ⟨[9], 1, 0, 2⟩) ∧
      ¬ ((⟨[9], 1, 0, 2⟩ : CircBuffer).endPos ≤
          (⟨[9], 1, 0, 2⟩ : CircBuffer).capacity) := by
  refine ⟨by decide, by decide, by decide⟩

/-! ## Compression-threshold configuration

`impl TryFrom<RawNetworkConfig> for NetworkConfig` in
`racemus/src/config/mod.rs` (the raw `compression-threshold` field is
an `i32`, converted with `try_into()` into an `Option<u16>`) and the
login step of `Connection::execute_encryption_response` in
`racemus/src/connection/mod.rs` (compression is set up iff the
converted threshold is `Some`). -/

/-- The `i32 → u16` `try_into` conversion: succeeds exactly on
`0 ≤ v ≤ 65535`. -/
def networkCompressionThreshold (v : Int) : Option Nat :=
  if 0 ≤ v ∧ v ≤ 65535 then some v.toNat else none

/-- Login-time compression setup: when the converted threshold is
`Some t`, send `SetCompression` (the returned flag), call
`reader.allow_compression()` and `writer.allow_compression(t)`;
otherwise leave both ends untouched. -/
def loginCompressionSetup (v : Int) (r : RState) (w : BinaryWriter) :
    Bool × RState × BinaryWriter :=
  match networkCompressionThreshold v with
  | some t => (true, { r with allow_compression := true }, w.allow_compression t)
  | none => (false, r, w)

/-- C7 (amended): a NEGATIVE threshold (or one above 65535, the `u16`
range) disables compression — no `SetCompression` is sent and neither
end is armed; every threshold in `0..=65535`, INCLUDING ZERO, enables
compression with that threshold. -/
theorem c7_compression_enable_range (v : Int) (r : RState) (w : BinaryWriter) :
    (0 ≤ v ∧ v ≤ 65535 →
      loginCompressionSetup v r w =
        (true, { r with allow_compression := true }, w.allow_compression v.toNat)) ∧
      (v < 0 ∨ 65535 < v → loginCompressionSetup v r w = (false, r, w)) := by
  constructor
  · intro h
    simp [loginCompressionSetup, networkCompressionThreshold, h]
  · intro h
    have : ¬ (0 ≤ v ∧ v ≤ 65535) := by omega
    simp [loginCompressionSetup, networkCompressionThreshold, this]

/-- C7 witness: the amended behaviour at thresholds 0 (enables) and -1
(disables). -/
theorem c7_compression_enable_range_witness :
    loginCompressionSetup 0 ⟨[], none, false⟩ BinaryWriter.new =
        (true, { (⟨[], none, false⟩ : RState) with allow_compression := true },
          BinaryWriter.new.allow_compression (0 : Int).toNat) ∧
      loginCompressionSetup (-1) ⟨[], none, false⟩ BinaryWriter.new =
        (false, ⟨[], none, false⟩, BinaryWriter.new) :=
  ⟨(c7_compression_enable_range 0 ⟨[], none, false⟩ BinaryWriter.new).1 (by decide),
   (c7_compression_enable_range (-1) ⟨[], none, false⟩ BinaryWriter.new).2 (by decide)⟩

/-- C7 counterexample to the claim as stated: threshold 0 does NOT
disable compression — the conversion `0i32 → u16` succeeds, so
`SetCompression(0)` is sent, the reader's flag is set and the writer
gets threshold 0. -/
theorem c7_zero_enables_counterexample :
    (loginCompressionSetup 0 ⟨[], none, false⟩ BinaryWriter.new).1 = true ∧
      (loginCompressionSetup 0 ⟨[], none, false⟩
        BinaryWriter.new).2.1.allow_compression = true ∧
      (loginCompressionSetup 0 ⟨[], none, false⟩
        BinaryWriter.new).2.2.compression_threshold = some 0 := by
  refine ⟨by decide, by decide, by decide⟩

/-! ## Mojang session-server hash

`calculate_server_hash` in `racemus-mc/src/api/session/mod.rs`. -/

/-- Big-endian bytes of a value, fixed width `k`. -/
def toBE : Nat → Nat → List Nat
  | 0, _ => []
  | k + 1, v => toBE k (v / 256) ++ [v % 256]

/-- Modelled from the spec: SHA-1, the external `ring::digest`
primitive used by `calculate_server_hash` ("the Mojang-style SHA-1
server-hash computation").  Standard FIPS 180 SHA-1 over a byte list;
32-bit words as `Nat` with explicit truncation. -/
def rotl32 (s x : Nat) : Nat := ((x <<< s) ||| (x >>> (32 - s))) % 2 ^ 32

/-- SHA-1 message padding: `0x80`, zeros to 56 mod 64, then the bit
length as eight big-endian bytes. -/
def sha1Pad (msg : List Nat) : List Nat :=
  let k := (119 - msg.length % 64) % 64
  msg ++ [128] ++ List.replicate k 0 ++ toBE 8 (msg.length * 8)

/-- Big-endian 32-bit words of a byte list. -/
def toWords : List Nat → List Nat
  | b0 :: b1 :: b2 :: b3 :: rest => (((b0 * 256 + b1) * 256 + b2) * 256 + b3) :: toWords rest
  | _ => []

/-- One step of the SHA-1 message-schedule extension. -/
def sha1ExtendStep (ws : List Nat) : List Nat :=
  ws ++ [rotl32 1 ((ws.getD (ws.length - 3) 0 ^^^ ws.getD (ws.length - 8) 0) ^^^
    (ws.getD (ws.length - 14) 0 ^^^ ws.getD (ws.length - 16) 0))]

/-- SHA-1 round loop over the 80 schedule words. -/
def sha1Rounds : List Nat → Nat → Nat × Nat × Nat × Nat × Nat → Nat × Nat × Nat × Nat × Nat
  | [], _, st => st
  | w :: ws, i, (a, b, c, d, e) =>
    let fk : Nat × Nat :=
      if i < 20 then ((b &&& c) ||| ((b ^^^ (2 ^ 32 - 1)) &&& d), 0x5A827999)
      else if i < 40 then ((b ^^^ c) ^^^ d, 0x6ED9EBA1)
      else if i < 60 then ((b &&& c) ||| ((b &&& d) ||| (c &&& d)), 0x8F1BBCDC)
      else ((b ^^^ c) ^^^ d, 0xCA62C1D6)
    let temp := (rotl32 5 a + fk.1 + e + fk.2 + w) % 2 ^ 32
    sha1Rounds ws (i + 1) (temp, a, rotl32 30 b, c, d)

/-- SHA-1 block loop; the fuel is the byte count, decremented faster
than the 64 bytes consumed per block, so it is never exhausted. -/
def sha1Blocks : Nat → List Nat → Nat × Nat × Nat × Nat × Nat → Nat × Nat × Nat × Nat × Nat
  | _, [], st => st
  | 0, _, st => st
  | fuel + 1, bytes, (h0, h1, h2, h3, h4) =>
    let ws := (sha1ExtendStep^[64]) (toWords (bytes.take 64))
    let r := sha1Rounds ws 0 (h0, h1, h2, h3, h4)
    sha1Blocks fuel (bytes.drop 64)
      ((h0 + r.1) % 2 ^ 32, (h1 + r.2.1) % 2 ^ 32, (h2 + r.2.2.1) % 2 ^ 32,
       (h3 + r.2.2.2.1) % 2 ^ 32, (h4 + r.2.2.2.2) % 2 ^ 32)

/-- SHA-1 digest (20 bytes) of a byte list. -/
def sha1 (msg : List Nat) : List Nat :=
  let p := sha1Pad msg
  let h := sha1Blocks p.length p
    (0x67452301, 0xEFCDAB89, 0x98BADCFE, 0x10325476, 0xC3D2E1F0)
  toBE 4 h.1 ++ toBE 4 h.2.1 ++ toBE 4 h.2.2.1 ++ toBE 4 h.2.2.2.1 ++ toBE 4 h.2.2.2.2

/-- Nibble-to-character table `to_hex`. -/
def to_hex (v : Nat) : Char :=
  match v with
  | 0 => '0' | 1 => '1' | 2 => '2' | 3 => '3' | 4 => '4' | 5 => '5'
  | 6 => '6' | 7 => '7' | 8 => '8' | 9 => '9' | 10 => 'a' | 11 => 'b'
  | 12 => 'c' | 13 => 'd' | 14 => 'e' | _ => 'f'

/-- Byte-wise negation loop of `calculate_server_hash` over the
little-endian (reversed) digest: `copy[i] = !hash[i]` (`!x` on `u8` is
`255 - x`), then while the carry is set, `carry = copy[i] == 0xff;
copy[i] += 1`.  The increment is embedded with wrapping semantics
`(x + 1) % 256`; in a debug build the Rust original panics instead
when `x = 0xff` (see `incExecutedAtFF`). -/
def negLoopLE : List Nat → Bool → List Nat
  | [], _ => []
  | h :: t, c =>
    let x := 255 - h
    if c then ((x + 1) % 256) :: negLoopLE t (decide (x = 255))
    else x :: negLoopLE t false

/-- Whether some iteration of the negation loop executes `copy[i] += 1`
with `copy[i] = 0xff`, i.e. overflows the `u8`. -/
def overflowLE : List Nat → Bool → Bool
  | [], _ => false
  | h :: t, c =>
    let x := 255 - h
    if c then (decide (x = 255) || overflowLE t (decide (x = 255)))
    else overflowLE t false

/-- Two's-complement bytes produced by the negation loop (big-endian
in, big-endian out). -/
def twosWrap (digest : List Nat) : List Nat := (negLoopLE digest.reverse true).reverse

/-- Overflow of the negation loop on a big-endian digest. -/
def incExecutedAtFF (digest : List Nat) : Bool := overflowLE digest.reverse true

/-- Hex-emission loop of `calculate_server_hash`: two nibbles per
byte, skipping digits while `nonzero` is still false. -/
def hexEmit : List Nat → Bool → List Char
  | [], _ => []
  | i :: rest, nz =>
    let c1 := i >>> 4
    let nz1 := nz || decide (c1 ≠ 0)
    let o1 : List Char := if nz1 then [to_hex c1] else []
    let c2 := i &&& 15
    let nz2 := nz1 || decide (c2 ≠ 0)
    let o2 : List Char := if nz2 then [to_hex c2] else []
    o1 ++ o2 ++ hexEmit rest nz2

/-- Formatting stage of `calculate_server_hash` on a digest: negative
iff the top bit of the first byte is set; negate byte-wise if so; emit
stripped lowercase hex, with a leading `-` in the negative case. -/
def calculate_server_hash_digest (digest : List Nat) : List Char :=
  let negative := decide (digest.headD 0 &&& 128 = 128)
  let twos := if negative then twosWrap digest else digest
  let chars := hexEmit twos false
  if negative then '-' :: chars else chars

/-- `calculate_server_hash`: SHA-1 of the three concatenated inputs,
formatted as a signed hex integer. -/
def calculate_server_hash (server_id shared_secret public_key_der : List Nat) :
    List Char :=
  calculate_server_hash_digest (sha1 (server_id ++ shared_secret ++ public_key_der))

/-- Big-endian integer value of a byte list. -/
def beNat (bytes : List Nat) : Nat := bytes.foldl (fun acc b => acc * 256 + b) 0

/-- Stripped lowercase hex digits of a value, most significant first
(empty for zero); fuel-based, `n + 1` is never exhausted. -/
def hexNatGo : Nat → Nat → List Char
  | 0, _ => []
  | f + 1, n => if n = 0 then [] else hexNatGo f (n / 16) ++ [to_hex (n % 16)]

/-- Stripped lowercase hex of a value. -/
def hexNat (n : Nat) : List Char := hexNatGo (n + 1) n

/-- Modelled from the spec: "The SHA-1 is a 20-byte big-endian signed
integer formatted in lowercase hex; a negative value (top bit set) is
printed in its absolute two's-complement value with a leading `-`, and
leading zeros are stripped in both cases." -/
def signedHexSpec (digest : List Nat) : List Char :=
  let n := beNat digest
  if n < 2 ^ 159 then hexNat n
  else '-' :: hexNat (2 ^ 160 - n)

/-! ### Hash-format lemmas -/

lemma hexNatGo_fuel : ∀ f n, n < f → hexNatGo f n = hexNat n := by
  intro f
  induction f using Nat.strong_induction_on with
  | _ f ih =>
    intro n hn
    match f, hn with
    | f' + 1, hn =>
      show hexNatGo (f' + 1) n = hexNatGo (n + 1) n
      rw [hexNatGo, hexNatGo]
      rcases eq_or_ne n 0 with h | h
      · rw [if_pos h, if_pos h]
      · rw [if_neg h, if_neg h]
        have hlt : n / 16 < n := Nat.div_lt_self (by omega) (by norm_num)
        rw [ih f' (by omega) _ (by omega), ih n (by omega) _ hlt]

lemma hexNat_eq (n : Nat) :
    hexNat n = if n = 0 then [] else hexNat (n / 16) ++ [to_hex (n % 16)] := by
  show hexNatGo (n + 1) n = _
  rw [hexNatGo]
  rcases eq_or_ne n 0 with h | h
  · rw [if_pos h, if_pos h]
  · rw [if_neg h, if_neg h, hexNatGo_fuel n _ (Nat.div_lt_self (by omega) (by norm_num))]

/-- Unstripped hex digits, two per byte. -/
def hexFull : List Nat → List Char
  | [] => []
  | b :: t => to_hex (b / 16) :: to_hex (b % 16) :: hexFull t

lemma shiftRight4_eq_div (i : Nat) : i >>> 4 = i / 16 := by
  rw [Nat.shiftRight_eq_div_pow]

lemma and_15_eq_mod (i : Nat) : i &&& 15 = i % 16 :=
  Nat.and_pow_two_sub_one_eq_mod i 4

lemma hexEmit_true (bs : List Nat) : hexEmit bs true = hexFull bs := by
  induction bs with
  | nil => rfl
  | cons b t ih =>
    rw [hexEmit]
    simp [ih, shiftRight4_eq_div, and_15_eq_mod, hexFull]

lemma hexNat_append {n b : Nat} (hb : b < 256) (hn : n ≠ 0) :
    hexNat (n * 256 + b) = hexNat n ++ [to_hex (b / 16), to_hex (b % 16)] := by
  have h1 : (n * 256 + b) / 16 = n * 16 + b / 16 := by omega
  have h2 : (n * 256 + b) % 16 = b % 16 := by omega
  have h3 : (n * 16 + b / 16) / 16 = n := by omega
  have h4 : (n * 16 + b / 16) % 16 = b / 16 := by omega
  rw [hexNat_eq, if_neg (by omega), h1, h2]
  rw [hexNat_eq (n * 16 + b / 16), if_neg (by omega), h3, h4]
  simp

lemma beNat_foldl_ne_zero : ∀ (rest : List Nat) (n : Nat), n ≠ 0 →
    List.foldl (fun acc b => acc * 256 + b) n rest ≠ 0 := by
  intro rest
  induction rest with
  | nil => intro n hn; simpa using hn
  | cons b t ih =>
    intro n hn
    rw [List.foldl_cons]
    exact ih _ (by omega)

lemma hexNat_foldl : ∀ (rest : List Nat) (n : Nat), n ≠ 0 →
    (∀ b ∈ rest, b < 256) →
    hexNat (List.foldl (fun acc b => acc * 256 + b) n rest) =
      hexNat n ++ hexFull rest := by
  intro rest
  induction rest with
  | nil => intro n hn _; simp [hexFull]
  | cons b t ih =>
    intro n hn hbs
    rw [List.foldl_cons, ih _ (by omega) (fun x hx => hbs x (by simp [hx]))]
    rw [hexNat_append (hbs b (by simp)) hn, hexFull]
    simp

lemma hexNat_byte {b : Nat} (hb : b < 256) (hz : b ≠ 0) :
    hexNat b = (if b / 16 ≠ 0 then [to_hex (b / 16)] else []) ++ [to_hex (b % 16)] := by
  rcases Nat.lt_or_ge b 16 with h | h
  · have hd : b / 16 = 0 := by omega
    have hm : b % 16 = b := by omega
    rw [hexNat_eq, if_neg hz, hd, hm, hexNat_eq, if_pos rfl, if_neg (by omega)]
  · have hd : b / 16 ≠ 0 := by omega
    rw [hexNat_eq, if_neg hz]
    rw [hexNat_eq (b / 16), if_neg hd]
    have : b / 16 / 16 = 0 := by omega
    rw [this, hexNat_eq, if_pos rfl]
    have h16 : b / 16 % 16 = b / 16 := by omega
    rw [h16, if_pos hd]
    simp

lemma hexEmit_false : ∀ bs : List Nat, (∀ b ∈ bs, b < 256) →
    hexEmit bs false = hexNat (beNat bs) := by
  intro bs
  induction bs with
  | nil => intro _; rfl
  | cons b t ih =>
    intro hbs
    have hb : b < 256 := hbs b (by simp)
    have ht : ∀ x ∈ t, x < 256 := fun x hx => hbs x (by simp [hx])
    rw [hexEmit]
    simp only [shiftRight4_eq_div, and_15_eq_mod, Bool.false_or]
    rcases eq_or_ne b 0 with rfl | hz
    · have hbe : beNat (0 :: t) = beNat t := by
        show List.foldl (fun acc b => acc * 256 + b) (0 * 256 + 0) t = _
        norm_num [beNat]
      simp [ih ht, hbe]
    · have hbeNat : beNat (b :: t) =
          List.foldl (fun acc b => acc * 256 + b) b t := by
        show List.foldl (fun acc b => acc * 256 + b) (0 * 256 + b) t = _
        norm_num
      rw [hbeNat, hexNat_foldl t b hz ht, hexNat_byte hb hz]
      rcases eq_or_ne (b / 16) 0 with hd | hd
      · have hm : b % 16 ≠ 0 := by omega
        rw [show decide (b / 16 ≠ 0) = false from decide_eq_false (by simpa using hd),
          show decide (b % 16 ≠ 0) = true from decide_eq_true hm]
        simp [hexEmit_true, hd]
      · rw [show decide (b / 16 ≠ 0) = true from decide_eq_true hd]
        simp [hexEmit_true, hd]

/-! ### Negation-loop lemmas -/

/-- Little-endian integer value of a byte list. -/
def leNat : List Nat → Nat
  | [] => 0
  | b :: t => b + 256 * leNat t

lemma leNat_lt : ∀ bs : List Nat, (∀ b ∈ bs, b < 256) → leNat bs < 256 ^ bs.length := by
  intro bs
  induction bs with
  | nil => intro _; simp [leNat]
  | cons b t ih =>
    intro hbs
    have hb : b < 256 := hbs b (by simp)
    have ht := ih (fun x hx => hbs x (by simp [hx]))
    rw [leNat, List.length_cons, pow_succ]
    have : 256 ^ t.length * 256 = 256 * 256 ^ t.length := by ring
    rw [this]
    omega

lemma leNat_append_single : ∀ (xs : List Nat) (b : Nat),
    leNat (xs ++ [b]) = leNat xs + b * 256 ^ xs.length := by
  intro xs
  induction xs with
  | nil => intro b; simp [leNat]
  | cons x t ih =>
    intro b
    rw [List.cons_append, leNat, leNat, ih, List.length_cons, pow_succ]
    ring

lemma beNatFrom_eq : ∀ (bs : List Nat) (n : Nat),
    List.foldl (fun acc b => acc * 256 + b) n bs = n * 256 ^ bs.length + beNat bs := by
  intro bs
  induction bs with
  | nil => intro n; simp [beNat]
  | cons b t ih =>
    intro n
    rw [List.foldl_cons, ih, List.length_cons, pow_succ]
    have hbe : beNat (b :: t) = b * 256 ^ t.length + beNat t := by
      show List.foldl (fun acc b => acc * 256 + b) (0 * 256 + b) t = _
      rw [ih]
      ring_nf
    rw [hbe]
    ring

lemma leNat_reverse_eq_beNat : ∀ bs : List Nat, leNat bs.reverse = beNat bs := by
  intro bs
  induction bs with
  | nil => rfl
  | cons b t ih =>
    rw [List.reverse_cons, leNat_append_single, ih]
    have hbe : beNat (b :: t) = b * 256 ^ t.length + beNat t := by
      show List.foldl (fun acc b => acc * 256 + b) (0 * 256 + b) t = _
      rw [beNatFrom_eq]
      ring_nf
    rw [hbe, List.length_reverse]
    ring

lemma negLoopLE_false_val : ∀ le : List Nat, (∀ b ∈ le, b < 256) →
    leNat (negLoopLE le false) = 256 ^ le.length - 1 - leNat le := by
  intro le
  induction le with
  | nil => intro _; rfl
  | cons h t ih =>
    intro hbs
    have hb : h < 256 := hbs h (by simp)
    have ht := ih (fun x hx => hbs x (by simp [hx]))
    have htlt := leNat_lt t (fun x hx => hbs x (by simp [hx]))
    show leNat ((255 - h) :: negLoopLE t false) = _
    simp only [leNat, List.length_cons, pow_succ]
    rw [ht]
    have hco : (256 : Nat) ^ t.length * 256 = 256 * 256 ^ t.length := by ring
    rw [hco]
    omega

lemma negLoopLE_true_val : ∀ le : List Nat, (∀ b ∈ le, b < 256) →
    leNat (negLoopLE le true) = (256 ^ le.length - leNat le) % 256 ^ le.length := by
  intro le
  induction le with
  | nil => intro _; rfl
  | cons h t ih =>
    intro hbs
    have hb : h < 256 := hbs h (by simp)
    have ht256 : ∀ x ∈ t, x < 256 := fun x hx => hbs x (by simp [hx])
    have htlt := leNat_lt t ht256
    have hpow : (256 : Nat) ^ (h :: t).length = 256 * 256 ^ t.length := by
      rw [List.length_cons, pow_succ]
      ring
    show leNat ((255 - h + 1) % 256 :: negLoopLE t (decide (255 - h = 255))) = _
    rcases eq_or_ne h 0 with rfl | hz
    · have hd : decide ((255 : Nat) - 0 = 255) = true := decide_eq_true rfl
      rw [hd]
      simp only [leNat, hpow]
      rw [ih ht256]
      norm_num
      rcases eq_or_ne (leNat t) 0 with hT | hT
      · rw [hT]
        simp
      · have h1 : (256 ^ t.length - leNat t) % 256 ^ t.length =
            256 ^ t.length - leNat t := Nat.mod_eq_of_lt (by omega)
        have h2 : (256 * 256 ^ t.length - 256 * leNat t) %
            (256 * 256 ^ t.length) = 256 * 256 ^ t.length - 256 * leNat t :=
          Nat.mod_eq_of_lt (by omega)
        rw [h1, h2]
        omega
    · have hd : decide ((255 : Nat) - h = 255) = false := decide_eq_false (by omega)
      rw [hd]
      simp only [leNat, hpow]
      rw [negLoopLE_false_val t ht256]
      have hmod : (255 - h + 1) % 256 = 256 - h := by omega
      rw [hmod]
      have hval : 256 - h + 256 * (256 ^ t.length - 1 - leNat t) =
          256 * 256 ^ t.length - (h + 256 * leNat t) := by
        have h1 : (1 : Nat) ≤ 256 ^ t.length := Nat.one_le_pow _ _ (by norm_num)
        omega
      rw [hval]
      exact (Nat.mod_eq_of_lt (by omega)).symm

lemma negLoopLE_bytes_lt : ∀ (le : List Nat) (c : Bool),
    ∀ b ∈ negLoopLE le c, b < 256 := by
  intro le
  induction le with
  | nil => intro c b hb; simp [negLoopLE] at hb
  | cons h t ih =>
    intro c b hb
    rcases c with _ | _
    · have hb2 : b ∈ (255 - h) :: negLoopLE t false := hb
      rcases List.mem_cons.mp hb2 with rfl | hmem
      · omega
      · exact ih false b hmem
    · have hb2 : b ∈ (255 - h + 1) % 256 :: negLoopLE t (decide (255 - h = 255)) := hb
      rcases List.mem_cons.mp hb2 with rfl | hmem
      · exact Nat.mod_lt _ (by norm_num)
      · exact ih _ b hmem

lemma negLoopLE_length : ∀ (le : List Nat) (c : Bool),
    (negLoopLE le c).length = le.length := by
  intro le
  induction le with
  | nil => intro c; rfl
  | cons h t ih =>
    intro c
    rcases c with _ | _
    · show ((255 - h) :: negLoopLE t false).length = _
      simp [ih]
    · show ((255 - h + 1) % 256 :: negLoopLE t (decide (255 - h = 255))).length = _
      simp [ih]

lemma twosWrap_val {digest : List Nat} (h20 : digest.length = 20)
    (hb : ∀ b ∈ digest, b < 256) :
    beNat (twosWrap digest) = (2 ^ 160 - beNat digest) % 2 ^ 160 := by
  unfold twosWrap
  rw [← leNat_reverse_eq_beNat, List.reverse_reverse]
  have hrev : ∀ b ∈ digest.reverse, b < 256 := by
    intro b hbmem
    exact hb b (List.mem_reverse.mp hbmem)
  rw [negLoopLE_true_val digest.reverse hrev, List.length_reverse, h20]
  rw [leNat_reverse_eq_beNat]
  norm_num

lemma beNat_lt (bs : List Nat) (hb : ∀ b ∈ bs, b < 256) :
    beNat bs < 256 ^ bs.length := by
  rw [← leNat_reverse_eq_beNat, ← List.length_reverse]
  exact leNat_lt bs.reverse (fun b hbm => hb b (List.mem_reverse.mp hbm))

lemma negative_iff_top_bit {digest : List Nat} (h20 : digest.length = 20)
    (hb : ∀ b ∈ digest, b < 256) :
    (digest.headD 0 &&& 128 = 128) ↔ 2 ^ 159 ≤ beNat digest := by
  match digest, h20 with
  | d0 :: rest, h20 =>
    have hd0 : d0 < 256 := hb d0 (by simp)
    have hr256 : ∀ b ∈ rest, b < 256 := fun x hx => hb x (by simp [hx])
    have hrlen : rest.length = 19 := by simpa using h20
    have hrlt : beNat rest < 256 ^ 19 := by
      have := beNat_lt rest hr256
      rwa [hrlen] at this
    have hbe : beNat (d0 :: rest) = d0 * 256 ^ 19 + beNat rest := by
      show List.foldl (fun acc b => acc * 256 + b) (0 * 256 + d0) rest = _
      rw [beNatFrom_eq, hrlen]
      ring_nf
    have hand : (d0 &&& 128 = 128) ↔ 128 ≤ d0 := by
      constructor
      · intro h
        by_contra hc
        push_neg at hc
        rw [and_128_eq_zero hc] at h
        omega
      · intro h
        have h7 : d0.testBit 7 = true := by
          rw [Nat.testBit_to_div_mod]
          simp only [decide_eq_true_eq]
          omega
        have := Nat.and_two_pow d0 7
        rw [h7] at this
        norm_num at this
        simpa using this
    rw [List.headD_cons, hbe, hand]
    have hp : (2 : Nat) ^ 159 = 128 * 256 ^ 19 := by norm_num
    constructor
    · intro h
      omega
    · intro h
      by_contra hc
      push_neg at hc
      have : d0 * 256 ^ 19 + beNat rest < 128 * 256 ^ 19 := by
        have hd127 : d0 ≤ 127 := by omega
        have : d0 * 256 ^ 19 ≤ 127 * 256 ^ 19 := Nat.mul_le_mul_right _ hd127
        omega
      omega

/-- C8: `calculate_server_hash` formats the digest exactly as the
signed big-endian hex integer of the spec (negative when the top bit
is set, two's-complement absolute value, lowercase, leading zeros
stripped), and reproduces the three Mojang test vectors for
public keys "Notch", "jeb_" and "simon" with empty server id and
secret. -/
theorem c8_server_hash_format :
    (∀ digest : List Nat, digest.length = 20 → (∀ b ∈ digest, b < 256) →
      calculate_server_hash_digest digest = signedHexSpec digest) ∧
      calculate_server_hash [] [] [78, 111, 116, 99, 104] =
        "4ed1f46bbe04bc756bcb17c0c7ce3e4632f06a48".toList ∧
      calculate_server_hash [] [] [106, 101, 98, 95] =
        "-7c9d5b0044c130109a5d7b5fb5c317c02b4e28c1".toList ∧
      calculate_server_hash [] [] [115, 105, 109, 111, 110] =
        "88e16a1019277b15d58faf0541e11910eb756f6".toList := by
  refine ⟨?_, by decide, by decide, by decide⟩
  intro digest h20 hb
  unfold calculate_server_hash_digest signedHexSpec
  have hNlt : beNat digest < 2 ^ 160 := by
    have := beNat_lt digest hb
    rw [h20] at this
    calc beNat digest < 256 ^ 20 := this
      _ = 2 ^ 160 := by norm_num
  rcases Classical.em (digest.headD 0 &&& 128 = 128) with hneg | hpos
  · have hge : 2 ^ 159 ≤ beNat digest := (negative_iff_top_bit h20 hb).mp hneg
    rw [show decide (digest.headD 0 &&& 128 = 128) = true from decide_eq_true hneg]
    show '-' :: hexEmit (twosWrap digest) false = _
    rw [if_neg (Nat.not_lt.mpr hge)]
    rw [hexEmit_false _ (fun b hbm => by
      have := negLoopLE_bytes_lt digest.reverse true b
      exact this (by simpa [twosWrap] using hbm))]
    rw [twosWrap_val h20 hb]
    have hmm : (2 ^ 160 - beNat digest) % 2 ^ 160 = 2 ^ 160 - beNat digest :=
      Nat.mod_eq_of_lt (by omega)
    rw [hmm]
  · have hlt : beNat digest < 2 ^ 159 := by
      by_contra hc
      push_neg at hc
      exact hpos ((negative_iff_top_bit h20 hb).mpr hc)
    rw [show decide (digest.headD 0 &&& 128 = 128) = false from decide_eq_false hpos]
    show hexEmit digest false = _
    rw [if_pos hlt, hexEmit_false digest hb]

/-- C8 witness: the format theorem applied at the all-ones digest
(negative branch) together with one of its closed conjuncts. -/
theorem c8_server_hash_format_witness :
    calculate_server_hash_digest (List.replicate 20 255) =
      signedHexSpec (List.replicate 20 255) :=
  c8_server_hash_format.1 (List.replicate 20 255) (by decide) (by decide)

lemma overflowLE_false : ∀ t : List Nat, overflowLE t false = false := by
  intro t
  induction t with
  | nil => rfl
  | cons h t ih =>
    show overflowLE t false = false
    exact ih

/-- C10 (amended): in the negative branch the increment IS executed
with `copy[i] = 0xff` for some digests — precisely those whose LAST
byte is `0x00` (the carry is live at the last position and
`!0 = 0xff`); the original claim that this never happens is false.
Under the wrapping semantics of a release build the loop still
computes the two's-complement value for every digest, so the hex
output remains correct; a debug build panics on such digests. -/
theorem c10_negation_loop_overflow :
    (∀ digest : List Nat, digest ≠ [] → (∀ b ∈ digest, b < 256) →
      (incExecutedAtFF digest = true ↔ digest.getLast? = some 0)) ∧
      (∀ digest : List Nat, digest.length = 20 → (∀ b ∈ digest, b < 256) →
        beNat (twosWrap digest) = (2 ^ 160 - beNat digest) % 2 ^ 160) := by
  constructor
  · intro digest hne hb
    unfold incExecutedAtFF
    have hrev : digest.reverse ≠ [] := by simpa using hne
    match hr : digest.reverse, hrev with
    | l0 :: rest, _ =>
      have hl0 : l0 < 256 := by
        have : l0 ∈ digest.reverse := by rw [hr]; simp
        exact hb l0 (List.mem_reverse.mp this)
      have hlast : digest.getLast? = some l0 := by
        rw [← List.head?_reverse, hr]
        rfl
      rw [hlast]
      show (decide (255 - l0 = 255) || overflowLE rest (decide (255 - l0 = 255))) =
          true ↔ some l0 = some 0
      rcases eq_or_ne l0 0 with rfl | hz
      · simp
      · have hd : decide ((255 : Nat) - l0 = 255) = false := decide_eq_false (by omega)
        rw [hd, overflowLE_false]
        simp [hz]
  · intro digest h20 hb
    exact twosWrap_val h20 hb

/-- C10 witness: the amended characterisation applied to the digest
`80 00 … 00` (negative, trailing zero — the loop overflows) and to a
20-byte digest for the wrap-correctness part. -/
theorem c10_negation_loop_overflow_witness :
    incExecutedAtFF (128 :: List.replicate 19 0) = true ∧
      beNat (twosWrap (List.replicate 20 255)) =
        (2 ^ 160 - beNat (List.replicate 20 255)) % 2 ^ 160 :=
  ⟨(c10_negation_loop_overflow.1 (128 :: List.replicate 19 0) (by decide)
      (by decide)).mpr (by decide),
   c10_negation_loop_overflow.2 (List.replicate 20 255) (by decide) (by decide)⟩

/-- C10 counterexample to the claim as stated: for the digest
`80 00 … 00` (top bit set, so the negative branch runs) the increment
is executed while `copy[i] = 0xff`, overflowing the `u8`. -/
theorem c10_overflow_counterexample :
    incExecutedAtFF (128 :: List.replicate 19 0) = true ∧
      (128 :: List.replicate 19 0).headD 0 &&& 128 = 128 ∧
      (128 :: List.replicate 19 0 : List Nat).length = 20 := by
  refine ⟨by decide, by decide, by decide⟩

/-! ## NBT codec

`Value` in `racemus-binary/src/nbt/value.rs`, the writer in
`nbt/writer.rs` and the iterative reader in `nbt/reader.rs`.  Strings
are Unicode scalar code-point lists (Rust `str`/`Arc<str>` content);
floats are carried as their IEEE bit patterns (the codec only moves
their bytes); the `HashMap` compound is modelled as an association
list in iteration order with `HashMap::insert` replace-or-append
semantics. -/

/-- NBT value tree. -/
inductive Value where
  | byte (b : Int)
  | short (s : Int)
  | int (i : Int)
  | long (l : Int)
  | float (bits : Nat)
  | double (bits : Nat)
  | byteArray (bs : List Nat)
  | string (cps : List Nat)
  | list (vs : List Value)
  | compound (m : List (List Nat × Value))
  | intArray (ia : List Int)
  | longArray (la : List Int)
deriving Repr

/-- `type_id_for` (nbt/writer.rs). -/
def type_id_for : Value → Nat
  | .byte _ => 1
  | .short _ => 2
  | .int _ => 3
  | .long _ => 4
  | .float _ => 5
  | .double _ => 6
  | .byteArray _ => 7
  | .string _ => 8
  | .list _ => 9
  | .compound _ => 10
  | .intArray _ => 11
  | .longArray _ => 12

/-- Unicode scalar values: below the surrogate range or between it and
0x110000. -/
def ValidCp (c : Nat) : Prop := c < 0xD800 ∨ (0xE000 ≤ c ∧ c < 0x110000)

instance (c : Nat) : Decidable (ValidCp c) := by
  unfold ValidCp
  infer_instance

/-- Modelled from the spec: the external `cesu8` crate's
`to_java_cesu8`, three-byte encoding of one UTF-16 code unit. -/
def cesuEnc3 (x : Nat) : List Nat :=
  [0xE0 + x / 4096, 0x80 + x / 64 % 64, 0x80 + x % 64]

/-- Modelled from the spec: Java CESU-8 encoding of one scalar value —
UTF-8 below U+10000 except that U+0000 becomes `C0 80`, and
supplementary characters become the two 3-byte surrogate halves. -/
def encodeCesu8Char (c : Nat) : List Nat :=
  if c = 0 then [0xC0, 0x80]
  else if c < 0x80 then [c]
  else if c < 0x800 then [0xC0 + c / 64, 0x80 + c % 64]
  else if c < 0x10000 then cesuEnc3 c
  else cesuEnc3 (0xD800 + (c - 0x10000) / 1024) ++ cesuEnc3 (0xDC00 + (c - 0x10000) % 1024)

/-- Modelled from the spec: `to_java_cesu8` over a code-point list. -/
def encodeCesu8 (cps : List Nat) : List Nat := (cps.map encodeCesu8Char).flatten

/-- UTF-8 byte length of one scalar (Rust `str::len` contribution),
used by the writer's name-length check. -/
def utf8LenChar (c : Nat) : Nat :=
  if c < 0x80 then 1 else if c < 0x800 then 2 else if c < 0x10000 then 3 else 4

/-- UTF-8 byte length of a code-point list. -/
def utf8Len (cps : List Nat) : Nat := (cps.map utf8LenChar).sum

/-- Modelled from the spec: the two-byte step of `from_java_cesu8` —
one continuation byte, rejecting overlong forms other than the Java
`C0 80` encoding of U+0000. -/
def dec2 (b : Nat) : List Nat → Option (Nat × List Nat)
  | b1 :: rest2 =>
    if 0x80 ≤ b1 ∧ b1 < 0xC0 then
      if (b - 0xC0) * 64 + (b1 - 0x80) = 0 ∧ ¬(b = 0xC0 ∧ b1 = 0x80) then none
      else if (b - 0xC0) * 64 + (b1 - 0x80) ≠ 0 ∧ (b - 0xC0) * 64 + (b1 - 0x80) < 0x80 then none
      else some ((b - 0xC0) * 64 + (b1 - 0x80), rest2)
    else none
  | [] => none

/-- Modelled from the spec: the three-byte step of `from_java_cesu8` —
two continuation bytes, rejecting overlong forms. -/
def dec3 (b : Nat) : List Nat → Option (Nat × List Nat)
  | b1 :: b2 :: rest2 =>
    if 0x80 ≤ b1 ∧ b1 < 0xC0 ∧ 0x80 ≤ b2 ∧ b2 < 0xC0 then
      if (b - 0xE0) * 4096 + (b1 - 0x80) * 64 + (b2 - 0x80) < 0x800 then none
      else some ((b - 0xE0) * 4096 + (b1 - 0x80) * 64 + (b2 - 0x80), rest2)
    else none
  | _ => none

/-- Modelled from the spec: after a high surrogate, `from_java_cesu8`
demands a three-byte low surrogate. -/
def decLow : List Nat → Option (Nat × List Nat)
  | b3 :: b4 :: b5 :: rest3 =>
    if 0xE0 ≤ b3 ∧ b3 < 0xF0 ∧ 0x80 ≤ b4 ∧ b4 < 0xC0 ∧ 0x80 ≤ b5 ∧ b5 < 0xC0 then
      if 0xDC00 ≤ (b3 - 0xE0) * 4096 + (b4 - 0x80) * 64 + (b5 - 0x80) ∧
          (b3 - 0xE0) * 4096 + (b4 - 0x80) * 64 + (b5 - 0x80) < 0xE000 then
        some ((b3 - 0xE0) * 4096 + (b4 - 0x80) * 64 + (b5 - 0x80), rest3)
      else none
    else none
  | _ => none

/-- Modelled from the spec: a whole three-byte-led `from_java_cesu8`
sequence — either a plain three-byte scalar, or a high surrogate that
must be followed by a three-byte low surrogate and yields the
supplementary code point; an unpaired low surrogate is an error. -/
def dec3Full (b : Nat) (rest : List Nat) : Option (Nat × List Nat) :=
  match dec3 b rest with
  | none => none
  | some p =>
    if 0xD800 ≤ p.1 ∧ p.1 < 0xDC00 then
      match decLow p.2 with
      | none => none
      | some q => some (0x10000 + (p.1 - 0xD800) * 1024 + (q.1 - 0xDC00), q.2)
    else if 0xDC00 ≤ p.1 ∧ p.1 < 0xE000 then none
    else some p

/-- Modelled from the spec: `from_java_cesu8`, decoding one or more
CESU-8 byte sequences back to scalar values.  The fuel argument only
bounds the iteration count (each step consumes at least one byte). -/
def decodeCesu8Go : Nat → List Nat → Option (List Nat)
  | _, [] => some []
  | 0, _ => none
  | f + 1, b :: rest =>
    if b < 0x80 then (decodeCesu8Go f rest).map (b :: ·)
    else if b < 0xC0 then none
    else if b < 0xE0 then
      match dec2 b rest with
      | none => none
      | some p => (decodeCesu8Go f p.2).map (p.1 :: ·)
    else if b < 0xF0 then
      match dec3Full b rest with
      | none => none
      | some p => (decodeCesu8Go f p.2).map (p.1 :: ·)
    else none

/-- CESU-8 decoding of a whole byte list. -/
def decodeCesu8 (bytes : List Nat) : Option (List Nat) :=
  decodeCesu8Go bytes.length bytes

/-- `MAX_LEN` (nbt/writer.rs): `i32::MAX as usize`. -/
def NBT_MAX_LEN : Nat := 2147483647

/-- `MAX_NAME_LEN` (nbt/writer.rs): `i16::MAX as usize`. -/
def NBT_MAX_NAME_LEN : Nat := 32767

/-- `nbt_inner` (nbt/writer.rs), together with its two `for` loops over
list elements (`.inr (.inl (type_id, elems))`, with the per-element
homogeneity check) and compound entries (`.inr (.inr entries)`, each
entry written by the recursive `nbt` call, name-length check included).
The fuel argument only bounds recursion depth; the Rust recursion is
bounded by the tree itself.  `fix_iN v` is `toBE N (toUnsignedI (8*N) v)`,
`fix_f32`/`fix_f64` write the IEEE bit pattern, length prefixes carry
the source's `as` casts as `% 2 ^ w`. -/
def wGo : Nat → Value ⊕ (Nat × List Value) ⊕ List (List Nat × Value) → Option (List Nat)
  | 0, _ => none
  | d + 1, .inl v =>
    match v with
    | .byte b => some (toBE 1 (toUnsignedI 8 b))
    | .short s => some (toBE 2 (toUnsignedI 16 s))
    | .int i => some (toBE 4 (toUnsignedI 32 i))
    | .long l => some (toBE 8 (toUnsignedI 64 l))
    | .float bits => some (toBE 4 (bits % 2 ^ 32))
    | .double bits => some (toBE 8 (bits % 2 ^ 64))
    | .byteArray bs =>
      if NBT_MAX_LEN < bs.length then none
      else some (toBE 4 (bs.length % 2 ^ 32) ++ bs)
    | .string cps =>
      if NBT_MAX_NAME_LEN < (encodeCesu8 cps).length then none
      else some (toBE 2 ((encodeCesu8 cps).length % 2 ^ 16) ++ encodeCesu8 cps)
    | .list vs =>
      match vs with
      | [] => some ([0] ++ toBE 4 0)
      | v0 :: _ =>
        if NBT_MAX_LEN < vs.length then none
        else
          (wGo d (.inr (.inl (type_id_for v0, vs)))).map
            (fun es => [type_id_for v0] ++ toBE 4 (vs.length % 2 ^ 32) ++ es)
    | .compound m => (wGo d (.inr (.inr m))).map (fun es => es ++ [0])
    | .intArray ia =>
      if NBT_MAX_LEN < ia.length then none
      else some (toBE 4 (ia.length % 2 ^ 32) ++
        (ia.map (fun i => toBE 4 (toUnsignedI 32 i))).flatten)
    | .longArray la =>
      if NBT_MAX_LEN < la.length then none
      else some (toBE 4 (la.length % 2 ^ 32) ++
        (la.map (fun l => toBE 8 (toUnsignedI 64 l))).flatten)
  | d + 1, .inr (.inl (tid, vs)) =>
    match vs with
    | [] => some []
    | v :: t =>
      if type_id_for v ≠ tid then none
      else
        (wGo d (.inl v)).bind (fun b =>
          (wGo d (.inr (.inl (tid, t)))).map (fun r => b ++ r))
  | d + 1, .inr (.inr m) =>
    match m with
    | [] => some []
    | (n, v) :: t =>
      if NBT_MAX_NAME_LEN < utf8Len n then none
      else
        (wGo d (.inl v)).bind (fun b =>
          (wGo d (.inr (.inr t))).map (fun r =>
            [type_id_for v] ++ toBE 2 ((encodeCesu8 n).length % 2 ^ 16) ++
              encodeCesu8 n ++ b ++ r))

/-- `BinaryWriter::nbt` (nbt/writer.rs): name-length check on the UTF-8
byte length, then tag byte, CESU-8 name length as `u16`, name bytes and
`nbt_inner` payload. -/
def writeNbt (d : Nat) (name : List Nat) (v : Value) : Option (List Nat) :=
  if NBT_MAX_NAME_LEN < utf8Len name then none
  else
    (wGo d (Sum.inl v)).map
      (fun b => [type_id_for v] ++ toBE 2 ((encodeCesu8 name).length % 2 ^ 16) ++
        encodeCesu8 name ++ b)

/-- `StackState` (nbt/reader.rs). -/
inductive NbtFrame where
  | compound (name : List Nat) (map : List (List Nat × Value))
  | list (name : List Nat) (elems : List Value) (typeId : Nat) (size : Nat)

/-- `HashMap::insert`: replace the value of an existing key in place,
otherwise append the new entry (iteration-order model). -/
def mapInsert : List (List Nat × Value) → List Nat → Value → List (List Nat × Value)
  | [], k, v => [(k, v)]
  | (k', v') :: t, k, v =>
    if k' = k then (k, v) :: t else (k', v') :: mapInsert t k v

/-- `push_value` (nbt/reader.rs): pop the top frame; no frame returns
the finished pair, a compound inserts and pushes back, a list appends
and either completes (frame stays popped) or pushes back. -/
def push_value (stack : List NbtFrame) (name : List Nat) (v : Value) :
    List NbtFrame × Option (List Nat × Value) :=
  match stack with
  | [] => ([], some (name, v))
  | .compound pn pm :: rest => (.compound pn (mapInsert pm name v) :: rest, none)
  | .list pn pl tid sz :: rest =>
    if (pl ++ [v]).length = sz then (rest, some (pn, .list (pl ++ [v])))
    else (.list pn (pl ++ [v]) tid sz :: rest, none)

/-- The `while let Some(current) = result` loop at the bottom of
`BinaryReader::nbt`: with a pending `(name, value)` result, return it
when the stack is empty and otherwise feed it to `push_value`,
repeating while `push_value` completes further frames. -/
def pushLoop : List NbtFrame → List Nat × Value → List NbtFrame × Option (List Nat × Value)
  | [], nv => ([], some nv)
  | .compound pn pm :: rest, (n, v) => (.compound pn (mapInsert pm n v) :: rest, none)
  | .list pn pl tid sz :: rest, (_, v) =>
    if (pl ++ [v]).length = sz then pushLoop rest (pn, .list (pl ++ [v]))
    else (.list pn (pl ++ [v]) tid sz :: rest, none)

lemma pushLoop_eq_push_value (st : List NbtFrame) (n : List Nat) (v : Value) (h : st ≠ []) :
    pushLoop st (n, v) =
      (match push_value st n v with
       | (st', none) => (st', none)
       | (st', some nv') => pushLoop st' nv') := by
  match st with
  | [] => exact absurd rfl h
  | .compound pn pm :: rest => rfl
  | .list pn pl tid sz :: rest =>
    show pushLoop _ _ = _
    rw [pushLoop, push_value]
    by_cases hlen : (pl ++ [v]).length = sz
    · rw [if_pos hlen, if_pos hlen]
    · rw [if_neg hlen, if_neg hlen]

/-- `fix_u8` reader. -/
def rdU8 : List Nat → Option (Nat × List Nat)
  | [] => none
  | b :: r => some (b, r)

/-- Reading `count` bytes (`data(count)` + `consume(count)`). -/
def rdBytes (k : Nat) (bs : List Nat) : Option (List Nat × List Nat) :=
  if k ≤ bs.length then some (bs.take k, bs.drop k) else none

/-- `fix_iN` reader: `k` big-endian bytes reinterpreted as a signed
`w = 8*k` bit integer. -/
def rdFix (k w : Nat) (bs : List Nat) : Option (Int × List Nat) :=
  (rdBytes k bs).map (fun p => (toSigned w (beNat p.1 % 2 ^ w), p.2))

/-- `fix_f32`/`fix_f64` readers, kept as the IEEE bit pattern. -/
def rdBits (k w : Nat) (bs : List Nat) : Option (Nat × List Nat) :=
  (rdBytes k bs).map (fun p => (beNat p.1 % 2 ^ w, p.2))

/-- `length_fix_i16` (nbt/reader.rs): negative lengths are
`InvalidLengthPrefix`. -/
def length_fix_i16 (bs : List Nat) : Option (Nat × List Nat) :=
  (rdFix 2 16 bs).bind (fun p => if p.1 < 0 then none else some (p.1.toNat, p.2))

/-- `length_fix_i32` (nbt/reader.rs). -/
def length_fix_i32 (bs : List Nat) : Option (Nat × List Nat) :=
  (rdFix 4 32 bs).bind (fun p => if p.1 < 0 then none else some (p.1.toNat, p.2))

/-- `str(count)` (nbt/reader.rs): `count` raw bytes through
`from_java_cesu8`. -/
def rdStrN (count : Nat) (bs : List Nat) : Option (List Nat × List Nat) :=
  (rdBytes count bs).bind (fun p => (decodeCesu8 p.1).map (fun cps => (cps, p.2)))

/-- `str_fix_i16` (nbt/reader.rs). -/
def str_fix_i16 (bs : List Nat) : Option (List Nat × List Nat) :=
  (length_fix_i16 bs).bind (fun p => rdStrN p.1 p.2)

/-- `tag_name` (nbt/reader.rs): tag byte, then for a nonzero tag the
i16-length-prefixed name. -/
def tag_name (bs : List Nat) : Option ((Nat × List Nat) × List Nat) :=
  match rdU8 bs with
  | none => none
  | some p =>
    if p.1 = 0 then some ((0, []), p.2)
    else (str_fix_i16 p.2).map (fun q => ((p.1, q.1), q.2))

/-- `tag` (nbt/reader.rs): inside a list frame the element tag comes
from the frame and the name is empty; otherwise `tag_name`. -/
def tagRead (stack : List NbtFrame) (bs : List Nat) : Option ((Nat × List Nat) × List Nat) :=
  match stack with
  | .list _ _ tid _ :: _ => some ((tid, []), bs)
  | _ => tag_name bs

/-- `0..len` loop of the `0x0b` arm: `len` big-endian i32s. -/
def rdI32List : Nat → List Nat → Option (List Int × List Nat)
  | 0, bs => some ([], bs)
  | n + 1, bs =>
    (rdFix 4 32 bs).bind (fun p =>
      (rdI32List n p.2).map (fun q => (p.1 :: q.1, q.2)))

/-- `0..len` loop of the `0x0c` arm: `len` big-endian i64s. -/
def rdI64List : Nat → List Nat → Option (List Int × List Nat)
  | 0, bs => some ([], bs)
  | n + 1, bs =>
    (rdFix 8 64 bs).bind (fun p =>
      (rdI64List n p.2).map (fun q => (p.1 :: q.1, q.2)))

/-- The non-recursive match arms of `BinaryReader::nbt` (tags 1-8, 11,
12); unknown tags are `InvalidNbt`. -/
def parseAtom (tid : Nat) (bs : List Nat) : Option (Value × List Nat) :=
  if tid = 1 then (rdFix 1 8 bs).map (fun p => (.byte p.1, p.2))
  else if tid = 2 then (rdFix 2 16 bs).map (fun p => (.short p.1, p.2))
  else if tid = 3 then (rdFix 4 32 bs).map (fun p => (.int p.1, p.2))
  else if tid = 4 then (rdFix 8 64 bs).map (fun p => (.long p.1, p.2))
  else if tid = 5 then (rdBits 4 32 bs).map (fun p => (.float p.1, p.2))
  else if tid = 6 then (rdBits 8 64 bs).map (fun p => (.double p.1, p.2))
  else if tid = 7 then
    (length_fix_i32 bs).bind (fun p =>
      (rdBytes p.1 p.2).map (fun q => (.byteArray q.1, q.2)))
  else if tid = 8 then (str_fix_i16 bs).map (fun p => (.string p.1, p.2))
  else if tid = 11 then
    (length_fix_i32 bs).bind (fun p =>
      (rdI32List p.1 p.2).map (fun q => (.intArray q.1, q.2)))
  else if tid = 12 then
    (length_fix_i32 bs).bind (fun p =>
      (rdI64List p.1 p.2).map (fun q => (.longArray q.1, q.2)))
  else none

/-- The `loop` of `BinaryReader::nbt` (nbt/reader.rs): read a tag, then
dispatch — `0x09` reads the element tag and size and opens a list frame
(or immediately yields an empty list), `0x0a` opens a compound frame,
`0x00` closes the innermost compound, every other tag parses an atomic
payload — and feed any finished `(name, value)` through the
`push_value` loop.  The fuel only bounds the iteration count. -/
def nbtLoop : Nat → List NbtFrame → List Nat → Option ((List Nat × Value) × List Nat)
  | 0, _, _ => none
  | f + 1, stack, bytes =>
    match tagRead stack bytes with
    | none => none
    | some ((tid, name), b1) =>
      if tid = 9 then
        match rdU8 b1 with
        | none => none
        | some pe =>
          match length_fix_i32 pe.2 with
          | none => none
          | some ps =>
            if ps.1 = 0 then
              match pushLoop stack (name, .list []) with
              | (_, some nv) => some (nv, ps.2)
              | (st', none) => nbtLoop f st' ps.2
            else nbtLoop f (.list name [] pe.1 ps.1 :: stack) ps.2
      else if tid = 10 then nbtLoop f (.compound name [] :: stack) b1
      else if tid = 0 then
        match stack with
        | .compound cn cm :: rest =>
          match pushLoop rest (cn, .compound cm) with
          | (_, some nv) => some (nv, b1)
          | (st', none) => nbtLoop f st' b1
        | _ => none
      else
        match parseAtom tid b1 with
        | none => none
        | some pv =>
          match pushLoop stack (name, pv.1) with
          | (_, some nv) => some (nv, pv.2)
          | (st', none) => nbtLoop f st' pv.2

/-- `BinaryReader::nbt` starts with an empty stack. -/
def readNbt (f : Nat) (bytes : List Nat) : Option ((List Nat × Value) × List Nat) :=
  nbtLoop f [] bytes

/-- One `nbtLoop` iteration after the tag has been read; identical to
the corresponding branch of `nbtLoop`. -/
def afterTag (f : Nat) (stack : List NbtFrame) (tid : Nat) (name b1 : List Nat) :
    Option ((List Nat × Value) × List Nat) :=
  if tid = 9 then
    match rdU8 b1 with
    | none => none
    | some pe =>
      match length_fix_i32 pe.2 with
      | none => none
      | some ps =>
        if ps.1 = 0 then
          match pushLoop stack (name, .list []) with
          | (_, some nv) => some (nv, ps.2)
          | (st', none) => nbtLoop f st' ps.2
        else nbtLoop f (.list name [] pe.1 ps.1 :: stack) ps.2
  else if tid = 10 then nbtLoop f (.compound name [] :: stack) b1
  else if tid = 0 then
    match stack with
    | .compound cn cm :: rest =>
      match pushLoop rest (cn, .compound cm) with
      | (_, some nv) => some (nv, b1)
      | (st', none) => nbtLoop f st' b1
    | _ => none
  else
    match parseAtom tid b1 with
    | none => none
    | some pv =>
      match pushLoop stack (name, pv.1) with
      | (_, some nv) => some (nv, pv.2)
      | (st', none) => nbtLoop f st' pv.2

/-- Delivering a parsed `(name, value)`: run the push loop, emit the
result when the stack unwound completely, otherwise keep looping. -/
def contPush (f : Nat) (st : List NbtFrame) (nm : List Nat) (v : Value) (rest : List Nat) :
    Option ((List Nat × Value) × List Nat) :=
  match pushLoop st (nm, v) with
  | (_, some nv) => some (nv, rest)
  | (st', none) => nbtLoop f st' rest

lemma nbtLoop_succ (f : Nat) (stack : List NbtFrame) (bytes : List Nat) :
    nbtLoop (f + 1) stack bytes =
      match tagRead stack bytes with
      | none => none
      | some p => afterTag f stack p.1.1 p.1.2 p.2 := by
  show _ = _
  rcases h : tagRead stack bytes with - | ⟨⟨tid, name⟩, b1⟩
  · unfold nbtLoop
    rw [h]
  · unfold nbtLoop afterTag
    rw [h]

lemma pushLoop_nil (nv : List Nat × Value) : pushLoop [] nv = ([], some nv) := rfl

lemma pushLoop_compound (pn : List Nat) (pm : List (List Nat × Value))
    (rest : List NbtFrame) (n : List Nat) (v : Value) :
    pushLoop (.compound pn pm :: rest) (n, v) =
      (.compound pn (mapInsert pm n v) :: rest, none) := rfl

lemma pushLoop_list_full (pn : List Nat) (pl : List Value) (tid sz : Nat)
    (rest : List NbtFrame) (n : List Nat) (v : Value) (h : (pl ++ [v]).length = sz) :
    pushLoop (.list pn pl tid sz :: rest) (n, v) = pushLoop rest (pn, .list (pl ++ [v])) := by
  show pushLoop _ _ = _
  rw [pushLoop, if_pos h]

lemma pushLoop_list_cont (pn : List Nat) (pl : List Value) (tid sz : Nat)
    (rest : List NbtFrame) (n : List Nat) (v : Value) (h : ¬(pl ++ [v]).length = sz) :
    pushLoop (.list pn pl tid sz :: rest) (n, v) =
      (.list pn (pl ++ [v]) tid sz :: rest, none) := by
  show pushLoop _ _ = _
  rw [pushLoop, if_neg h]

lemma contPush_of_some (f : Nat) (st st2 : List NbtFrame) (nm : List Nat) (v : Value)
    (rest : List Nat) (nv : List Nat × Value) (h : pushLoop st (nm, v) = (st2, some nv)) :
    contPush f st nm v rest = some (nv, rest) := by
  unfold contPush
  rw [h]

lemma contPush_of_none (f : Nat) (st st' : List NbtFrame) (nm : List Nat) (v : Value)
    (rest : List Nat) (h : pushLoop st (nm, v) = (st', none)) :
    contPush f st nm v rest = nbtLoop f st' rest := by
  unfold contPush
  rw [h]

lemma afterTag_atom (f : Nat) (stack : List NbtFrame) (tid : Nat) (name b1 : List Nat)
    (v : Value) (b2 : List Nat) (h9 : tid ≠ 9) (h10 : tid ≠ 10) (h0 : tid ≠ 0)
    (hp : parseAtom tid b1 = some (v, b2)) :
    afterTag f stack tid name b1 = contPush f stack name v b2 := by
  unfold afterTag contPush
  rw [if_neg h9, if_neg h10, if_neg h0, hp]

lemma afterTag_open_compound (f : Nat) (stack : List NbtFrame) (name b1 : List Nat) :
    afterTag f stack 10 name b1 = nbtLoop f (.compound name [] :: stack) b1 := by
  unfold afterTag
  rw [if_neg (by decide), if_pos rfl]

lemma afterTag_close (f : Nat) (cn : List Nat) (cm : List (List Nat × Value))
    (rest : List NbtFrame) (name b1 : List Nat) :
    afterTag f (.compound cn cm :: rest) 0 name b1 = contPush f rest cn (.compound cm) b1 := by
  unfold afterTag contPush
  rw [if_neg (by decide), if_neg (by decide), if_pos rfl]

lemma afterTag_list (f : Nat) (stack : List NbtFrame) (name b1 : List Nat)
    (elemT : Nat) (b2 : List Nat) (size : Nat) (b3 : List Nat)
    (hu : rdU8 b1 = some (elemT, b2)) (hl : length_fix_i32 b2 = some (size, b3)) :
    afterTag f stack 9 name b1 =
      if size = 0 then contPush f stack name (.list []) b3
      else nbtLoop f (.list name [] elemT size :: stack) b3 := by
  unfold afterTag contPush
  rw [if_pos rfl, hu]
  show (match length_fix_i32 b2 with
        | none => none
        | some ps =>
          if ps.1 = 0 then
            match pushLoop stack (name, .list []) with
            | (_, some nv) => some (nv, ps.2)
            | (st', none) => nbtLoop f st' ps.2
          else nbtLoop f (.list name [] elemT ps.1 :: stack) ps.2) = _
  rw [hl]

lemma toBE_length : ∀ (k v : Nat), (toBE k v).length = k := by
  intro k
  induction k with
  | zero => intro v; rfl
  | succ k ih => intro v; rw [toBE, List.length_append, ih]; rfl

lemma beNat_append_single (xs : List Nat) (b : Nat) :
    beNat (xs ++ [b]) = beNat xs * 256 + b := by
  unfold beNat
  rw [List.foldl_append]
  rfl

lemma beNat_toBE : ∀ (k v : Nat), v < 256 ^ k → beNat (toBE k v) = v := by
  intro k
  induction k with
  | zero =>
    intro v hv
    have : v = 0 := by omega
    simp [this, toBE, beNat]
  | succ k ih =>
    intro v hv
    rw [toBE, beNat_append_single, ih (v / 256) (by
      have h : 256 ^ (k + 1) = 256 ^ k * 256 := by rw [pow_succ]
      omega)]
    omega

lemma rdBytes_prefix (pre rest : List Nat) :
    rdBytes pre.length (pre ++ rest) = some (pre, rest) := by
  unfold rdBytes
  rw [if_pos (by simp)]
  rw [List.take_left, List.drop_left]

lemma rdBytes_len (k : Nat) (pre rest : List Nat) (h : pre.length = k) :
    rdBytes k (pre ++ rest) = some (pre, rest) := by
  subst h
  exact rdBytes_prefix pre rest

lemma rdFix_round (k w : Nat) (hkw : 256 ^ k = 2 ^ w) (hw : 1 ≤ w) (i : Int)
    (h1 : -(2 ^ (w - 1) : Int) ≤ i) (h2 : i < 2 ^ (w - 1)) (rest : List Nat) :
    rdFix k w (toBE k (toUnsignedI w i) ++ rest) = some (i, rest) := by
  unfold rdFix
  rw [rdBytes_len k _ rest (toBE_length k _)]
  have hbe : beNat (toBE k (toUnsignedI w i)) = toUnsignedI w i :=
    beNat_toBE k _ (by rw [hkw]; exact toUnsignedI_lt w i)
  simp only [Option.map_some']
  rw [hbe, Nat.mod_eq_of_lt (toUnsignedI_lt w i), toSigned_toUnsignedI hw h1 h2]

lemma rdBits_round (k w : Nat) (hkw : 256 ^ k = 2 ^ w) (bits : Nat)
    (hb : bits < 2 ^ w) (rest : List Nat) :
    rdBits k w (toBE k (bits % 2 ^ w) ++ rest) = some (bits, rest) := by
  unfold rdBits
  have hsm : bits % 2 ^ w = bits := Nat.mod_eq_of_lt hb
  rw [rdBytes_len k _ rest (toBE_length k _)]
  simp only [Option.map_some']
  rw [beNat_toBE k _ (by rw [hkw, hsm]; exact hb), hsm, hsm]

lemma length_fix_i32_round (n : Nat) (hn : n ≤ 2147483647) (rest : List Nat) :
    length_fix_i32 (toBE 4 (n % 2 ^ 32) ++ rest) = some (n, rest) := by
  unfold length_fix_i32
  have hfx : rdFix 4 32 (toBE 4 (toUnsignedI 32 (n : Int)) ++ rest) = some ((n : Int), rest) := by
    refine rdFix_round 4 32 (by norm_num) (by norm_num) (n : Int) (by
      have : (0 : Int) ≤ (n : Int) := Int.natCast_nonneg n
      omega) (by exact_mod_cast (by omega : n < 2 ^ 31)) rest
  rw [toUnsignedI_natCast (by omega : n < 2 ^ 32)] at hfx
  rw [Nat.mod_eq_of_lt (by omega : n < 2 ^ 32), hfx]
  simp only [Option.some_bind]
  rw [if_neg (by omega), Int.toNat_natCast]

lemma length_fix_i16_round (n : Nat) (hn : n ≤ 32767) (rest : List Nat) :
    length_fix_i16 (toBE 2 (n % 2 ^ 16) ++ rest) = some (n, rest) := by
  unfold length_fix_i16
  have hfx : rdFix 2 16 (toBE 2 (toUnsignedI 16 (n : Int)) ++ rest) = some ((n : Int), rest) := by
    refine rdFix_round 2 16 (by norm_num) (by norm_num) (n : Int) (by
      have : (0 : Int) ≤ (n : Int) := Int.natCast_nonneg n
      omega) (by exact_mod_cast (by omega : n < 2 ^ 15)) rest
  rw [toUnsignedI_natCast (by omega : n < 2 ^ 16)] at hfx
  rw [Nat.mod_eq_of_lt (by omega : n < 2 ^ 16), hfx]
  simp only [Option.some_bind]
  rw [if_neg (by omega), Int.toNat_natCast]

lemma decodeCesu8Go_succ_cons (f b : Nat) (rest : List Nat) :
    decodeCesu8Go (f + 1) (b :: rest) =
      if b < 0x80 then (decodeCesu8Go f rest).map (b :: ·)
      else if b < 0xC0 then none
      else if b < 0xE0 then
        match dec2 b rest with
        | none => none
        | some p => (decodeCesu8Go f p.2).map (p.1 :: ·)
      else if b < 0xF0 then
        match dec3Full b rest with
        | none => none
        | some p => (decodeCesu8Go f p.2).map (p.1 :: ·)
      else none := rfl

lemma dec2_zero (rest : List Nat) : dec2 0xC0 (0x80 :: rest) = some (0, rest) := by
  unfold dec2
  norm_num

lemma dec2_enc (c : Nat) (hlo : 0x80 ≤ c) (hhi : c < 0x800) (rest : List Nat) :
    dec2 (0xC0 + c / 64) ((0x80 + c % 64) :: rest) = some (c, rest) := by
  show (if 0x80 ≤ 0x80 + c % 64 ∧ 0x80 + c % 64 < 0xC0 then _ else _) = _
  rw [if_pos (by constructor <;> omega)]
  rw [if_neg (fun h => absurd h.1 (by omega))]
  rw [if_neg (fun h => absurd h.2 (by omega))]
  have hcc : (0xC0 + c / 64 - 0xC0) * 64 + (0x80 + c % 64 - 0x80) = c := by omega
  rw [hcc]

lemma dec3_enc (x : Nat) (hlo : 0x800 ≤ x) (hhi : x < 0x10000) (rest : List Nat) :
    dec3 (0xE0 + x / 4096) ((0x80 + x / 64 % 64) :: (0x80 + x % 64) :: rest) =
      some (x, rest) := by
  show (if 0x80 ≤ 0x80 + x / 64 % 64 ∧ 0x80 + x / 64 % 64 < 0xC0 ∧
      0x80 ≤ 0x80 + x % 64 ∧ 0x80 + x % 64 < 0xC0 then _ else _) = _
  rw [if_pos (by refine ⟨by omega, by omega, by omega, by omega⟩)]
  have hxx : (0xE0 + x / 4096 - 0xE0) * 4096 + (0x80 + x / 64 % 64 - 0x80) * 64 +
      (0x80 + x % 64 - 0x80) = x := by omega
  rw [hxx, if_neg (by omega)]

lemma decLow_enc (y : Nat) (hlo : 0xDC00 ≤ y) (hhi : y < 0xE000) (rest : List Nat) :
    decLow (cesuEnc3 y ++ rest) = some (y, rest) := by
  show (if 0xE0 ≤ 0xE0 + y / 4096 ∧ 0xE0 + y / 4096 < 0xF0 ∧
      0x80 ≤ 0x80 + y / 64 % 64 ∧ 0x80 + y / 64 % 64 < 0xC0 ∧
      0x80 ≤ 0x80 + y % 64 ∧ 0x80 + y % 64 < 0xC0 then _ else _) = _
  rw [if_pos (by refine ⟨by omega, by omega, by omega, by omega, by omega, by omega⟩)]
  have hyy : (0xE0 + y / 4096 - 0xE0) * 4096 + (0x80 + y / 64 % 64 - 0x80) * 64 +
      (0x80 + y % 64 - 0x80) = y := by omega
  rw [hyy, if_pos (by constructor <;> omega)]
  rfl

lemma dec3Full_plain (x : Nat) (hlo : 0x800 ≤ x) (hhi : x < 0x10000)
    (hns : x < 0xD800 ∨ 0xE000 ≤ x) (rest : List Nat) :
    dec3Full (0xE0 + x / 4096) ((0x80 + x / 64 % 64) :: (0x80 + x % 64) :: rest) =
      some (x, rest) := by
  unfold dec3Full
  rw [dec3_enc x hlo hhi]
  show (if 0xD800 ≤ x ∧ x < 0xDC00 then _ else _) = _
  rw [if_neg (by omega), if_neg (by omega)]

lemma dec3Full_sur (hi lo c : Nat) (hhi : 0xD800 ≤ hi ∧ hi < 0xDC00)
    (hlo : 0xDC00 ≤ lo ∧ lo < 0xE000)
    (hc : c = 0x10000 + (hi - 0xD800) * 1024 + (lo - 0xDC00)) (rest : List Nat) :
    dec3Full (0xE0 + hi / 4096)
      ((0x80 + hi / 64 % 64) :: (0x80 + hi % 64) :: (cesuEnc3 lo ++ rest)) =
      some (c, rest) := by
  unfold dec3Full
  rw [dec3_enc hi (by omega) (by omega)]
  show (if 0xD800 ≤ hi ∧ hi < 0xDC00 then _ else _) = _
  rw [if_pos hhi, decLow_enc lo hlo.1 hlo.2 rest]
  show some (0x10000 + (hi - 0xD800) * 1024 + (lo - 0xDC00), rest) = _
  rw [hc]

lemma decodeCesu8Go_char (c : Nat) (hc : ValidCp c) (rest : List Nat) (f : Nat) :
    decodeCesu8Go (f + 1) (encodeCesu8Char c ++ rest) =
      (decodeCesu8Go f rest).map (c :: ·) := by
  rcases Nat.lt_or_ge c 0x80 with h80 | h80
  · rcases eq_or_ne c 0 with rfl | hne
    · show decodeCesu8Go (f + 1) (0xC0 :: 0x80 :: rest) = _
      rw [decodeCesu8Go_succ_cons, if_neg (by omega), if_neg (by omega),
        if_pos (by omega), dec2_zero]
    · have he : encodeCesu8Char c = [c] := by
        unfold encodeCesu8Char
        rw [if_neg hne, if_pos h80]
      rw [he]
      show decodeCesu8Go (f + 1) (c :: rest) = _
      rw [decodeCesu8Go_succ_cons, if_pos h80]
  · rcases Nat.lt_or_ge c 0x800 with h800 | h800
    · have he : encodeCesu8Char c = [0xC0 + c / 64, 0x80 + c % 64] := by
        unfold encodeCesu8Char
        rw [if_neg (by omega), if_neg (by omega), if_pos h800]
      rw [he]
      show decodeCesu8Go (f + 1) ((0xC0 + c / 64) :: (0x80 + c % 64) :: rest) = _
      rw [decodeCesu8Go_succ_cons, if_neg (by omega), if_neg (by omega),
        if_pos (by omega), dec2_enc c h80 h800]
    · rcases Nat.lt_or_ge c 0x10000 with h64k | h64k
      · have hsur : c < 0xD800 ∨ 0xE000 ≤ c := by
          rcases hc with h | h
          · exact Or.inl h
          · exact Or.inr h.1
        have he : encodeCesu8Char c = cesuEnc3 c := by
          unfold encodeCesu8Char
          rw [if_neg (by omega), if_neg (by omega), if_neg (by omega), if_pos h64k]
        rw [he]
        show decodeCesu8Go (f + 1)
          ((0xE0 + c / 4096) :: ((0x80 + c / 64 % 64) :: (0x80 + c % 64) :: rest)) = _
        rw [decodeCesu8Go_succ_cons, if_neg (by omega), if_neg (by omega),
          if_neg (by omega), if_pos (by omega), dec3Full_plain c h800 h64k hsur]
      · have hhi : c < 0x110000 := by
          rcases hc with h | h
          · omega
          · exact h.2
        have he : encodeCesu8Char c =
            cesuEnc3 (0xD800 + (c - 0x10000) / 1024) ++
              cesuEnc3 (0xDC00 + (c - 0x10000) % 1024) := by
          unfold encodeCesu8Char
          rw [if_neg (by omega), if_neg (by omega), if_neg (by omega), if_neg (by omega)]
        rw [he]
        show decodeCesu8Go (f + 1)
          ((0xE0 + (0xD800 + (c - 0x10000) / 1024) / 4096) ::
           ((0x80 + (0xD800 + (c - 0x10000) / 1024) / 64 % 64) ::
            (0x80 + (0xD800 + (c - 0x10000) / 1024) % 64) ::
            (cesuEnc3 (0xDC00 + (c - 0x10000) % 1024) ++ rest))) = _
        rw [decodeCesu8Go_succ_cons, if_neg (by omega), if_neg (by omega),
          if_neg (by omega), if_pos (by omega),
          dec3Full_sur (0xD800 + (c - 0x10000) / 1024) (0xDC00 + (c - 0x10000) % 1024) c
            (by constructor <;> omega) (by constructor <;> omega) (by omega) rest]

lemma decodeCesu8Go_nil (f : Nat) : decodeCesu8Go f [] = some [] := by
  cases f <;> rfl

lemma decodeCesu8Go_encode : ∀ (cps : List Nat), (∀ c ∈ cps, ValidCp c) →
    ∀ f, cps.length ≤ f → decodeCesu8Go f (encodeCesu8 cps) = some cps := by
  intro cps
  induction cps with
  | nil => intro _ f _; rw [show encodeCesu8 [] = [] from rfl, decodeCesu8Go_nil]
  | cons c t ih =>
    intro hv f hf
    match f with
    | f' + 1 =>
      have he : encodeCesu8 (c :: t) = encodeCesu8Char c ++ encodeCesu8 t := by
        unfold encodeCesu8
        rw [List.map_cons, List.flatten_cons]
      rw [he, decodeCesu8Go_char c (hv c (List.mem_cons_self c t)) _ f',
        ih (fun x hx => hv x (List.mem_cons_of_mem c hx)) f' (by
          have := List.length_cons c t ▸ hf
          omega)]
      rfl

lemma encodeCesu8_length_ge : ∀ cps : List Nat, cps.length ≤ (encodeCesu8 cps).length := by
  intro cps
  induction cps with
  | nil => simp [encodeCesu8]
  | cons c t ih =>
    have he : encodeCesu8 (c :: t) = encodeCesu8Char c ++ encodeCesu8 t := by
      unfold encodeCesu8
      rw [List.map_cons, List.flatten_cons]
    rw [he, List.length_append, List.length_cons]
    have h1 : 1 ≤ (encodeCesu8Char c).length := by
      unfold encodeCesu8Char cesuEnc3
      repeat' split
      all_goals simp
    omega

/-- `from_java_cesu8 ∘ to_java_cesu8 = id` on valid scalar sequences. -/
lemma decodeCesu8_encode (cps : List Nat) (hv : ∀ c ∈ cps, ValidCp c) :
    decodeCesu8 (encodeCesu8 cps) = some cps :=
  decodeCesu8Go_encode cps hv _ (encodeCesu8_length_ge cps)

lemma str_fix_i16_round (n : List Nat) (hv : ∀ c ∈ n, ValidCp c)
    (hlen : (encodeCesu8 n).length ≤ 32767) (rest : List Nat) :
    str_fix_i16 (toBE 2 ((encodeCesu8 n).length % 2 ^ 16) ++ (encodeCesu8 n ++ rest)) =
      some (n, rest) := by
  unfold str_fix_i16
  rw [length_fix_i16_round _ hlen]
  simp only [Option.some_bind]
  unfold rdStrN
  rw [rdBytes_len _ _ rest rfl]
  simp only [Option.some_bind]
  rw [decodeCesu8_encode n hv]
  rfl

lemma tag_name_zero (rest : List Nat) : tag_name (0 :: rest) = some ((0, []), rest) := rfl

lemma tag_name_round (tid : Nat) (htid : tid ≠ 0) (n : List Nat)
    (hv : ∀ c ∈ n, ValidCp c) (hlen : (encodeCesu8 n).length ≤ 32767) (rest : List Nat) :
    tag_name (tid :: (toBE 2 ((encodeCesu8 n).length % 2 ^ 16) ++ (encodeCesu8 n ++ rest))) =
      some ((tid, n), rest) := by
  unfold tag_name
  show (if tid = 0 then _ else _) = _
  rw [if_neg htid, str_fix_i16_round n hv hlen rest]
  rfl

lemma tagRead_nil (bs : List Nat) : tagRead [] bs = tag_name bs := rfl

lemma tagRead_compound (cn : List Nat) (cm : List (List Nat × Value))
    (st : List NbtFrame) (bs : List Nat) :
    tagRead (.compound cn cm :: st) bs = tag_name bs := rfl

lemma tagRead_list (n : List Nat) (l : List Value) (tid sz : Nat)
    (st : List NbtFrame) (bs : List Nat) :
    tagRead (.list n l tid sz :: st) bs = some ((tid, []), bs) := rfl

lemma rdI32List_round : ∀ (ia : List Int), (∀ i ∈ ia, -(2 ^ 31 : Int) ≤ i ∧ i < 2 ^ 31) →
    ∀ rest : List Nat,
    rdI32List ia.length ((ia.map (fun i => toBE 4 (toUnsignedI 32 i))).flatten ++ rest) =
      some (ia, rest) := by
  intro ia
  induction ia with
  | nil => intro _ rest; simp [rdI32List]
  | cons i t ih =>
    intro hr rest
    rw [List.map_cons, List.flatten_cons, List.append_assoc]
    show rdI32List (t.length + 1) _ = _
    rw [rdI32List, rdFix_round 4 32 (by norm_num) (by norm_num) i
      (hr i (List.mem_cons_self i t)).1 (hr i (List.mem_cons_self i t)).2 _]
    simp only [Option.some_bind]
    rw [ih (fun x hx => hr x (List.mem_cons_of_mem i hx)) rest]
    rfl

lemma rdI64List_round : ∀ (la : List Int), (∀ l ∈ la, -(2 ^ 63 : Int) ≤ l ∧ l < 2 ^ 63) →
    ∀ rest : List Nat,
    rdI64List la.length ((la.map (fun l => toBE 8 (toUnsignedI 64 l))).flatten ++ rest) =
      some (la, rest) := by
  intro la
  induction la with
  | nil => intro _ rest; simp [rdI64List]
  | cons l t ih =>
    intro hr rest
    rw [List.map_cons, List.flatten_cons, List.append_assoc]
    show rdI64List (t.length + 1) _ = _
    rw [rdI64List, rdFix_round 8 64 (by norm_num) (by norm_num) l
      (hr l (List.mem_cons_self l t)).1 (hr l (List.mem_cons_self l t)).2 _]
    simp only [Option.some_bind]
    rw [ih (fun x hx => hr x (List.mem_cons_of_mem l hx)) rest]
    rfl

lemma parseAtom_byte (b : Int) (h1 : -(2 ^ 7 : Int) ≤ b) (h2 : b < 2 ^ 7) (rest : List Nat) :
    parseAtom 1 (toBE 1 (toUnsignedI 8 b) ++ rest) = some (.byte b, rest) := by
  unfold parseAtom
  rw [if_pos rfl, rdFix_round 1 8 (by norm_num) (by norm_num) b h1 h2 rest]
  rfl

lemma parseAtom_short (s : Int) (h1 : -(2 ^ 15 : Int) ≤ s) (h2 : s < 2 ^ 15) (rest : List Nat) :
    parseAtom 2 (toBE 2 (toUnsignedI 16 s) ++ rest) = some (.short s, rest) := by
  unfold parseAtom
  rw [if_neg (by decide), if_pos rfl,
    rdFix_round 2 16 (by norm_num) (by norm_num) s h1 h2 rest]
  rfl

lemma parseAtom_int (i : Int) (h1 : -(2 ^ 31 : Int) ≤ i) (h2 : i < 2 ^ 31) (rest : List Nat) :
    parseAtom 3 (toBE 4 (toUnsignedI 32 i) ++ rest) = some (.int i, rest) := by
  unfold parseAtom
  rw [if_neg (by decide), if_neg (by decide), if_pos rfl,
    rdFix_round 4 32 (by norm_num) (by norm_num) i h1 h2 rest]
  rfl

lemma parseAtom_long (l : Int) (h1 : -(2 ^ 63 : Int) ≤ l) (h2 : l < 2 ^ 63) (rest : List Nat) :
    parseAtom 4 (toBE 8 (toUnsignedI 64 l) ++ rest) = some (.long l, rest) := by
  unfold parseAtom
  rw [if_neg (by decide), if_neg (by decide), if_neg (by decide), if_pos rfl,
    rdFix_round 8 64 (by norm_num) (by norm_num) l h1 h2 rest]
  rfl

lemma parseAtom_float (bits : Nat) (hb : bits < 2 ^ 32) (rest : List Nat) :
    parseAtom 5 (toBE 4 (bits % 2 ^ 32) ++ rest) = some (.float bits, rest) := by
  unfold parseAtom
  rw [if_neg (by decide), if_neg (by decide), if_neg (by decide), if_neg (by decide),
    if_pos rfl, rdBits_round 4 32 (by norm_num) bits hb rest]
  rfl

lemma parseAtom_double (bits : Nat) (hb : bits < 2 ^ 64) (rest : List Nat) :
    parseAtom 6 (toBE 8 (bits % 2 ^ 64) ++ rest) = some (.double bits, rest) := by
  unfold parseAtom
  rw [if_neg (by decide), if_neg (by decide), if_neg (by decide), if_neg (by decide),
    if_neg (by decide), if_pos rfl, rdBits_round 8 64 (by norm_num) bits hb rest]
  rfl

lemma parseAtom_byteArray (bs : List Nat) (hlen : bs.length ≤ 2147483647) (rest : List Nat) :
    parseAtom 7 (toBE 4 (bs.length % 2 ^ 32) ++ (bs ++ rest)) = some (.byteArray bs, rest) := by
  unfold parseAtom
  rw [if_neg (by decide), if_neg (by decide), if_neg (by decide), if_neg (by decide),
    if_neg (by decide), if_neg (by decide), if_pos rfl,
    length_fix_i32_round bs.length hlen]
  simp only [Option.some_bind]
  rw [rdBytes_len bs.length bs rest rfl]
  rfl

lemma parseAtom_string (cps : List Nat) (hv : ∀ c ∈ cps, ValidCp c)
    (hlen : (encodeCesu8 cps).length ≤ 32767) (rest : List Nat) :
    parseAtom 8 (toBE 2 ((encodeCesu8 cps).length % 2 ^ 16) ++ (encodeCesu8 cps ++ rest)) =
      some (.string cps, rest) := by
  unfold parseAtom
  rw [if_neg (by decide), if_neg (by decide), if_neg (by decide), if_neg (by decide),
    if_neg (by decide), if_neg (by decide), if_neg (by decide), if_pos rfl,
    str_fix_i16_round cps hv hlen rest]
  rfl

lemma parseAtom_intArray (ia : List Int) (hr : ∀ i ∈ ia, -(2 ^ 31 : Int) ≤ i ∧ i < 2 ^ 31)
    (hlen : ia.length ≤ 2147483647) (rest : List Nat) :
    parseAtom 11 (toBE 4 (ia.length % 2 ^ 32) ++
        ((ia.map (fun i => toBE 4 (toUnsignedI 32 i))).flatten ++ rest)) =
      some (.intArray ia, rest) := by
  unfold parseAtom
  rw [if_neg (by decide), if_neg (by decide), if_neg (by decide), if_neg (by decide),
    if_neg (by decide), if_neg (by decide), if_neg (by decide), if_neg (by decide),
    if_pos rfl, length_fix_i32_round ia.length hlen]
  simp only [Option.some_bind]
  rw [rdI32List_round ia hr rest]
  rfl

lemma parseAtom_longArray (la : List Int) (hr : ∀ l ∈ la, -(2 ^ 63 : Int) ≤ l ∧ l < 2 ^ 63)
    (hlen : la.length ≤ 2147483647) (rest : List Nat) :
    parseAtom 12 (toBE 4 (la.length % 2 ^ 32) ++
        ((la.map (fun l => toBE 8 (toUnsignedI 64 l))).flatten ++ rest)) =
      some (.longArray la, rest) := by
  unfold parseAtom
  rw [if_neg (by decide), if_neg (by decide), if_neg (by decide), if_neg (by decide),
    if_neg (by decide), if_neg (by decide), if_neg (by decide), if_neg (by decide),
    if_neg (by decide), if_pos rfl, length_fix_i32_round la.length hlen]
  simp only [Option.some_bind]
  rw [rdI64List_round la hr rest]
  rfl

/-- Valid NBT map keys / string content: scalar code points whose
CESU-8 encoding fits the i16 length prefix. -/
def WfName (n : List Nat) : Prop :=
  (∀ c ∈ n, ValidCp c) ∧ (encodeCesu8 n).length ≤ 32767

/-- Well-formedness of a `Value` tree: the constraints the Rust types
carry for free and the writer does not re-check — integer ranges, IEEE
bit-pattern widths, valid string scalars with encodable lengths, and
compound keys distinct (a `HashMap` cannot hold duplicates). -/
inductive WfValue : Value → Prop where
  | byte (b : Int) : -128 ≤ b → b < 128 → WfValue (.byte b)
  | short (s : Int) : -32768 ≤ s → s < 32768 → WfValue (.short s)
  | int (i : Int) : -2147483648 ≤ i → i < 2147483648 → WfValue (.int i)
  | long (l : Int) : -9223372036854775808 ≤ l → l < 9223372036854775808 → WfValue (.long l)
  | float (bits : Nat) : bits < 2 ^ 32 → WfValue (.float bits)
  | double (bits : Nat) : bits < 2 ^ 64 → WfValue (.double bits)
  | byteArray (bs : List Nat) : WfValue (.byteArray bs)
  | string (cps : List Nat) : (∀ c ∈ cps, ValidCp c) → WfValue (.string cps)
  | list (vs : List Value) : (∀ v ∈ vs, WfValue v) → WfValue (.list vs)
  | compound (m : List (List Nat × Value)) : (∀ p ∈ m, WfName p.1) →
      (∀ p ∈ m, WfValue p.2) → (m.map Prod.fst).Nodup → WfValue (.compound m)
  | intArray (ia : List Int) : (∀ i ∈ ia, -2147483648 ≤ i ∧ i < 2147483648) →
      WfValue (.intArray ia)
  | longArray (la : List Int) :
      (∀ l ∈ la, -9223372036854775808 ≤ l ∧ l < 9223372036854775808) →
      WfValue (.longArray la)

/-- Structural induction over the nested `Value` type, with membership
hypotheses for list elements and compound entry values. -/
lemma value_induction (P : Value → Prop)
    (hbyte : ∀ b, P (.byte b)) (hshort : ∀ s, P (.short s))
    (hint : ∀ i, P (.int i)) (hlong : ∀ l, P (.long l))
    (hfloat : ∀ x, P (.float x)) (hdouble : ∀ x, P (.double x))
    (hbarr : ∀ bs, P (.byteArray bs)) (hstr : ∀ s, P (.string s))
    (hia : ∀ ia, P (.intArray ia)) (hla : ∀ la, P (.longArray la))
    (hlist : ∀ vs, (∀ v ∈ vs, P v) → P (.list vs))
    (hcomp : ∀ m, (∀ p ∈ m, P p.2) → P (.compound m)) : ∀ v, P v := by
  suffices h : ∀ n, ∀ v : Value, sizeOf v < n → P v by
    intro v
    exact h (sizeOf v + 1) v (by omega)
  intro n
  induction n with
  | zero => intro v hv; omega
  | succ n ih =>
    intro v hv
    match v with
    | .byte b => exact hbyte b
    | .short s => exact hshort s
    | .int i => exact hint i
    | .long l => exact hlong l
    | .float x => exact hfloat x
    | .double x => exact hdouble x
    | .byteArray bs => exact hbarr bs
    | .string s => exact hstr s
    | .intArray ia => exact hia ia
    | .longArray la => exact hla la
    | .list vs =>
      refine hlist vs (fun x hx => ih x ?_)
      have h1 : sizeOf x < sizeOf vs := List.sizeOf_lt_of_mem hx
      have h2 : sizeOf (Value.list vs) = 1 + sizeOf vs := by simp
      omega
    | .compound m =>
      refine hcomp m (fun p hp => ih p.2 ?_)
      have h1 : sizeOf p < sizeOf m := List.sizeOf_lt_of_mem hp
      have h2 : sizeOf (Value.compound m) = 1 + sizeOf m := by simp
      have h3 : sizeOf p.2 < sizeOf p := by
        obtain ⟨a, b⟩ := p
        simp
      omega

lemma mapInsert_notmem : ∀ (m : List (List Nat × Value)) (k : List Nat) (v : Value),
    k ∉ m.map Prod.fst → mapInsert m k v = m ++ [(k, v)] := by
  intro m
  induction m with
  | nil => intro k v _; rfl
  | cons p t ih =>
    intro k v hk
    obtain ⟨k', v'⟩ := p
    rw [List.map_cons, List.mem_cons] at hk
    push_neg at hk
    rw [mapInsert, if_neg (by simpa using hk.1.symm), ih k v hk.2]
    rfl

lemma type_id_ne_zero (v : Value) : type_id_for v ≠ 0 := by
  cases v <;> simp [type_id_for]

lemma contPush_emp (f : Nat) (n : List Nat) (v : Value) (rest : List Nat) :
    contPush f [] n v rest = some ((n, v), rest) := by
  unfold contPush
  rw [pushLoop_nil]

lemma contPush_compound (f : Nat) (pn : List Nat) (pm : List (List Nat × Value))
    (stTail : List NbtFrame) (n : List Nat) (v : Value) (rest : List Nat) :
    contPush f (.compound pn pm :: stTail) n v rest =
      nbtLoop f (.compound pn (mapInsert pm n v) :: stTail) rest := by
  unfold contPush
  rw [pushLoop_compound]

lemma contPush_list_full (f : Nat) (pn : List Nat) (pl : List Value) (tid sz : Nat)
    (stTail : List NbtFrame) (n : List Nat) (v : Value) (rest : List Nat)
    (h : (pl ++ [v]).length = sz) :
    contPush f (.list pn pl tid sz :: stTail) n v rest =
      contPush f stTail pn (.list (pl ++ [v])) rest := by
  unfold contPush
  rw [pushLoop_list_full pn pl tid sz stTail n v h]

lemma contPush_list_cont (f : Nat) (pn : List Nat) (pl : List Value) (tid sz : Nat)
    (stTail : List NbtFrame) (n : List Nat) (v : Value) (rest : List Nat)
    (h : ¬(pl ++ [v]).length = sz) :
    contPush f (.list pn pl tid sz :: stTail) n v rest =
      nbtLoop f (.list pn (pl ++ [v]) tid sz :: stTail) rest := by
  unfold contPush
  rw [pushLoop_list_cont pn pl tid sz stTail n v h]

/-- The value round-trip property established by the main induction:
once the tag for `v` has been read (with any name), any successful
writer output for `v` parses back to exactly `v`, for every stack,
trailing bytes, and sufficient fuel. -/
def RtP (v : Value) : Prop :=
  ∀ (d : Nat) (bv : List Nat), wGo d (Sum.inl v) = some bv →
    ∃ F : Nat, ∀ (st : List NbtFrame) (nm rest : List Nat) (f : Nat),
      afterTag (F + f) st (type_id_for v) nm (bv ++ rest) = contPush f st nm v rest

lemma list_elems_rt (tid : Nat) : ∀ (vs : List Value),
    (∀ v ∈ vs, WfValue v → RtP v) → (∀ v ∈ vs, WfValue v) →
    ∀ (d : Nat) (ebs : List Nat), wGo d (Sum.inr (Sum.inl (tid, vs))) = some ebs →
    vs ≠ [] →
    ∃ F : Nat, ∀ (acc : List Value) (st : List NbtFrame) (nm : List Nat) (sz : Nat)
        (rest : List Nat) (f : Nat), acc.length + vs.length = sz →
      nbtLoop (F + f) (.list nm acc tid sz :: st) (ebs ++ rest) =
        contPush f st nm (.list (acc ++ vs)) rest := by
  intro vs
  induction vs with
  | nil => intro _ _ _ _ _ hne; exact absurd rfl hne
  | cons v t ih =>
    intro hrt hwf d ebs hw _
    cases d with
    | zero => exact Option.noConfusion hw
    | succ d =>
      have hw' : (if type_id_for v ≠ tid then none
          else (wGo d (Sum.inl v)).bind fun b =>
            (wGo d (Sum.inr (Sum.inl (tid, t)))).map fun r => b ++ r) = some ebs := hw
      by_cases htid : type_id_for v ≠ tid
      · rw [if_pos htid] at hw'
        exact Option.noConfusion hw'
      · rw [if_neg htid] at hw'
        push_neg at htid
        cases hb : wGo d (Sum.inl v) with
        | none =>
          rw [hb] at hw'
          exact Option.noConfusion hw'
        | some b =>
          cases hr : wGo d (Sum.inr (Sum.inl (tid, t))) with
          | none =>
            rw [hb, hr] at hw'
            exact Option.noConfusion hw'
          | some r =>
            rw [hb, hr] at hw'
            simp only [Option.some_bind, Option.map_some'] at hw'
            have hebs : ebs = b ++ r := (Option.some.inj hw').symm
            subst hebs
            obtain ⟨Fv, hFv⟩ :=
              hrt v (List.mem_cons_self v t) (hwf v (List.mem_cons_self v t)) d b hb
            rcases eq_or_ne t [] with rfl | hte
            · have hr0 : r = [] := by
                cases d with
                | zero => exact Option.noConfusion hr
                | succ d' =>
                  have hr' : (some [] : Option (List Nat)) = some r := hr
                  exact (Option.some.inj hr').symm
              subst hr0
              refine ⟨Fv + 1, ?_⟩
              intro acc st nm sz rest f hsz
              have hfe : Fv + 1 + f = (Fv + f) + 1 := by omega
              rw [hfe, nbtLoop_succ, tagRead_list]
              show afterTag (Fv + f) (.list nm acc tid sz :: st) tid [] ((b ++ []) ++ rest) = _
              rw [List.append_nil, ← htid,
                hFv (.list nm acc (type_id_for v) sz :: st) [] rest f,
                contPush_list_full f nm acc (type_id_for v) sz st [] v rest
                  (by simp at hsz ⊢; omega)]
            · obtain ⟨Ft, hFt⟩ :=
                ih (fun x hx => hrt x (List.mem_cons_of_mem v hx))
                  (fun x hx => hwf x (List.mem_cons_of_mem v hx)) d r hr hte
              refine ⟨Fv + Ft + 1, ?_⟩
              intro acc st nm sz rest f hsz
              have hfe : Fv + Ft + 1 + f = (Fv + (Ft + f)) + 1 := by omega
              rw [hfe, nbtLoop_succ, tagRead_list]
              show afterTag (Fv + (Ft + f)) (.list nm acc tid sz :: st) tid []
                ((b ++ r) ++ rest) = _
              rw [List.append_assoc, ← htid,
                hFv (.list nm acc (type_id_for v) sz :: st) [] (r ++ rest) (Ft + f),
                contPush_list_cont (Ft + f) nm acc (type_id_for v) sz st [] v (r ++ rest)
                  (by
                    simp at hsz ⊢
                    have : t.length ≠ 0 := fun h => hte (List.length_eq_zero.mp h)
                    omega),
                htid,
                hFt (acc ++ [v]) st nm sz rest f (by simp at hsz ⊢; omega)]
              rw [List.append_assoc]
              rfl

lemma comp_entries_rt : ∀ (m : List (List Nat × Value)),
    (∀ p ∈ m, WfValue p.2 → RtP p.2) →
    (∀ p ∈ m, WfName p.1 ∧ WfValue p.2) →
    (m.map Prod.fst).Nodup →
    ∀ (d : Nat) (eb : List Nat), wGo d (Sum.inr (Sum.inr m)) = some eb →
    ∃ F : Nat, ∀ (acc : List (List Nat × Value)) (st : List NbtFrame)
        (nm rest : List Nat) (f : Nat),
      (∀ p ∈ m, p.1 ∉ acc.map Prod.fst) →
      nbtLoop (F + f) (.compound nm acc :: st) (eb ++ ([0] ++ rest)) =
        contPush f st nm (.compound (acc ++ m)) rest := by
  intro m
  induction m with
  | nil =>
    intro _ _ _ d eb hw
    cases d with
    | zero => exact Option.noConfusion hw
    | succ d =>
      have hw' : (some [] : Option (List Nat)) = some eb := hw
      have heb : eb = [] := (Option.some.inj hw').symm
      subst heb
      refine ⟨1, ?_⟩
      intro acc st nm rest f _
      have hfe : 1 + f = f + 1 := by omega
      rw [hfe, nbtLoop_succ, tagRead_compound, List.nil_append]
      have ht : tag_name ([0] ++ rest) = some ((0, []), rest) := tag_name_zero rest
      rw [ht]
      show afterTag f (.compound nm acc :: st) 0 [] rest = _
      rw [afterTag_close, List.append_nil]
  | cons p t ih =>
    intro hrt hpair hnd d eb hw
    obtain ⟨n, v0⟩ := p
    cases d with
    | zero => exact Option.noConfusion hw
    | succ d =>
      have hw' : (if NBT_MAX_NAME_LEN < utf8Len n then none
          else (wGo d (Sum.inl v0)).bind fun b =>
            (wGo d (Sum.inr (Sum.inr t))).map fun r =>
              [type_id_for v0] ++ toBE 2 ((encodeCesu8 n).length % 2 ^ 16) ++
                encodeCesu8 n ++ b ++ r) = some eb := hw
      by_cases hn1 : NBT_MAX_NAME_LEN < utf8Len n
      · rw [if_pos hn1] at hw'
        exact Option.noConfusion hw'
      · rw [if_neg hn1] at hw'
        cases hb : wGo d (Sum.inl v0) with
        | none =>
          rw [hb] at hw'
          exact Option.noConfusion hw'
        | some b =>
          cases hr : wGo d (Sum.inr (Sum.inr t)) with
          | none =>
            rw [hb, hr] at hw'
            exact Option.noConfusion hw'
          | some r =>
            rw [hb, hr] at hw'
            simp only [Option.some_bind, Option.map_some'] at hw'
            have heb : eb = [type_id_for v0] ++ toBE 2 ((encodeCesu8 n).length % 2 ^ 16) ++
                encodeCesu8 n ++ b ++ r := (Option.some.inj hw').symm
            subst heb
            have hmem : (n, v0) ∈ (n, v0) :: t := List.mem_cons_self _ t
            obtain ⟨Fv, hFv⟩ := hrt (n, v0) hmem ((hpair (n, v0) hmem).2) d b hb
            obtain ⟨Ft, hFt⟩ :=
              ih (fun x hx => hrt x (List.mem_cons_of_mem _ hx))
                (fun x hx => hpair x (List.mem_cons_of_mem _ hx))
                ((List.nodup_cons.mp (by simpa using hnd)).2) d r hr
            refine ⟨Fv + Ft + 1, ?_⟩
            intro acc st nm rest f hdis
            have hfe : Fv + Ft + 1 + f = (Fv + (Ft + f)) + 1 := by omega
            rw [hfe, nbtLoop_succ, tagRead_compound]
            have hby : (([type_id_for v0] ++ toBE 2 ((encodeCesu8 n).length % 2 ^ 16) ++
                encodeCesu8 n ++ b ++ r) ++ ([0] ++ rest)) =
                type_id_for v0 :: (toBE 2 ((encodeCesu8 n).length % 2 ^ 16) ++
                  (encodeCesu8 n ++ (b ++ (r ++ ([0] ++ rest))))) := by
              simp [List.append_assoc]
            rw [hby]
            have hwn : WfName n := (hpair (n, v0) hmem).1
            rw [tag_name_round (type_id_for v0) (type_id_ne_zero v0) n hwn.1 hwn.2
              (b ++ (r ++ ([0] ++ rest)))]
            show afterTag (Fv + (Ft + f)) (.compound nm acc :: st) (type_id_for v0) n
              (b ++ (r ++ ([0] ++ rest))) = _
            rw [hFv (.compound nm acc :: st) n (r ++ ([0] ++ rest)) (Ft + f),
              contPush_compound (Ft + f) nm acc st n v0 (r ++ ([0] ++ rest)),
              mapInsert_notmem acc n v0 (hdis (n, v0) hmem),
              hFt (acc ++ [(n, v0)]) st nm rest f (by
                intro q hq
                rw [List.map_append, List.mem_append]
                rintro (hin | hin)
                · exact hdis q (List.mem_cons_of_mem _ hq) hin
                · have hqn : q.1 = n := by simpa using hin
                  have hnin : n ∉ t.map Prod.fst :=
                    (List.nodup_cons.mp (by simpa using hnd)).1
                  exact hnin (hqn ▸ List.mem_map_of_mem Prod.fst hq))]
            rw [List.append_assoc]
            rfl

lemma rtp_all : ∀ v : Value, WfValue v → RtP v := by
  refine value_induction (fun v => WfValue v → RtP v) ?_ ?_ ?_ ?_ ?_ ?_ ?_ ?_ ?_ ?_ ?_ ?_
  · -- byte
    intro b hwf d bv hw
    cases d with
    | zero => exact Option.noConfusion hw
    | succ d =>
      have hw' : (some (toBE 1 (toUnsignedI 8 b)) : Option (List Nat)) = some bv := hw
      have hbv : bv = toBE 1 (toUnsignedI 8 b) := (Option.some.inj hw').symm
      subst hbv
      refine ⟨0, ?_⟩
      intro st nm rest f
      rw [Nat.zero_add]
      have hr : -128 ≤ b ∧ b < 128 := by cases hwf with | byte _ h1 h2 => exact ⟨h1, h2⟩
      show afterTag f st 1 nm (toBE 1 (toUnsignedI 8 b) ++ rest) = _
      rw [afterTag_atom f st 1 nm _ (.byte b) rest (by decide) (by decide) (by decide)
        (parseAtom_byte b (by omega) (by omega) rest)]
  · -- short
    intro s hwf d bv hw
    cases d with
    | zero => exact Option.noConfusion hw
    | succ d =>
      have hw' : (some (toBE 2 (toUnsignedI 16 s)) : Option (List Nat)) = some bv := hw
      have hbv : bv = toBE 2 (toUnsignedI 16 s) := (Option.some.inj hw').symm
      subst hbv
      refine ⟨0, ?_⟩
      intro st nm rest f
      rw [Nat.zero_add]
      have hr : -32768 ≤ s ∧ s < 32768 := by cases hwf with | short _ h1 h2 => exact ⟨h1, h2⟩
      show afterTag f st 2 nm (toBE 2 (toUnsignedI 16 s) ++ rest) = _
      rw [afterTag_atom f st 2 nm _ (.short s) rest (by decide) (by decide) (by decide)
        (parseAtom_short s (by omega) (by omega) rest)]
  · -- int
    intro i hwf d bv hw
    cases d with
    | zero => exact Option.noConfusion hw
    | succ d =>
      have hw' : (some (toBE 4 (toUnsignedI 32 i)) : Option (List Nat)) = some bv := hw
      have hbv : bv = toBE 4 (toUnsignedI 32 i) := (Option.some.inj hw').symm
      subst hbv
      refine ⟨0, ?_⟩
      intro st nm rest f
      rw [Nat.zero_add]
      have hr : -2147483648 ≤ i ∧ i < 2147483648 := by
        cases hwf with | int _ h1 h2 => exact ⟨h1, h2⟩
      show afterTag f st 3 nm (toBE 4 (toUnsignedI 32 i) ++ rest) = _
      rw [afterTag_atom f st 3 nm _ (.int i) rest (by decide) (by decide) (by decide)
        (parseAtom_int i (by omega) (by omega) rest)]
  · -- long
    intro l hwf d bv hw
    cases d with
    | zero => exact Option.noConfusion hw
    | succ d =>
      have hw' : (some (toBE 8 (toUnsignedI 64 l)) : Option (List Nat)) = some bv := hw
      have hbv : bv = toBE 8 (toUnsignedI 64 l) := (Option.some.inj hw').symm
      subst hbv
      refine ⟨0, ?_⟩
      intro st nm rest f
      rw [Nat.zero_add]
      have hr : -9223372036854775808 ≤ l ∧ l < 9223372036854775808 := by
        cases hwf with | long _ h1 h2 => exact ⟨h1, h2⟩
      show afterTag f st 4 nm (toBE 8 (toUnsignedI 64 l) ++ rest) = _
      rw [afterTag_atom f st 4 nm _ (.long l) rest (by decide) (by decide) (by decide)
        (parseAtom_long l (by omega) (by omega) rest)]
  · -- float
    intro x hwf d bv hw
    cases d with
    | zero => exact Option.noConfusion hw
    | succ d =>
      have hw' : (some (toBE 4 (x % 2 ^ 32)) : Option (List Nat)) = some bv := hw
      have hbv : bv = toBE 4 (x % 2 ^ 32) := (Option.some.inj hw').symm
      subst hbv
      refine ⟨0, ?_⟩
      intro st nm rest f
      rw [Nat.zero_add]
      have hr : x < 2 ^ 32 := by cases hwf with | float _ h1 => exact h1
      show afterTag f st 5 nm (toBE 4 (x % 2 ^ 32) ++ rest) = _
      rw [afterTag_atom f st 5 nm _ (.float x) rest (by decide) (by decide) (by decide)
        (parseAtom_float x hr rest)]
  · -- double
    intro x hwf d bv hw
    cases d with
    | zero => exact Option.noConfusion hw
    | succ d =>
      have hw' : (some (toBE 8 (x % 2 ^ 64)) : Option (List Nat)) = some bv := hw
      have hbv : bv = toBE 8 (x % 2 ^ 64) := (Option.some.inj hw').symm
      subst hbv
      refine ⟨0, ?_⟩
      intro st nm rest f
      rw [Nat.zero_add]
      have hr : x < 2 ^ 64 := by cases hwf with | double _ h1 => exact h1
      show afterTag f st 6 nm (toBE 8 (x % 2 ^ 64) ++ rest) = _
      rw [afterTag_atom f st 6 nm _ (.double x) rest (by decide) (by decide) (by decide)
        (parseAtom_double x hr rest)]
  · -- byteArray
    intro bs _ d bv hw
    cases d with
    | zero => exact Option.noConfusion hw
    | succ d =>
      have hw' : (if NBT_MAX_LEN < bs.length then none
          else some (toBE 4 (bs.length % 2 ^ 32) ++ bs)) = some bv := hw
      by_cases hL : NBT_MAX_LEN < bs.length
      · rw [if_pos hL] at hw'
        exact Option.noConfusion hw'
      · rw [if_neg hL] at hw'
        have hbv : bv = toBE 4 (bs.length % 2 ^ 32) ++ bs := (Option.some.inj hw').symm
        subst hbv
        have hL' : bs.length ≤ 2147483647 := by
          rw [show NBT_MAX_LEN = 2147483647 from rfl] at hL
          omega
        refine ⟨0, ?_⟩
        intro st nm rest f
        rw [Nat.zero_add]
        show afterTag f st 7 nm ((toBE 4 (bs.length % 2 ^ 32) ++ bs) ++ rest) = _
        rw [List.append_assoc,
          afterTag_atom f st 7 nm _ (.byteArray bs) rest (by decide) (by decide) (by decide)
            (parseAtom_byteArray bs hL' rest)]
  · -- string
    intro cps hwf d bv hw
    cases d with
    | zero => exact Option.noConfusion hw
    | succ d =>
      have hw' : (if NBT_MAX_NAME_LEN < (encodeCesu8 cps).length then none
          else some (toBE 2 ((encodeCesu8 cps).length % 2 ^ 16) ++ encodeCesu8 cps)) =
          some bv := hw
      by_cases hL : NBT_MAX_NAME_LEN < (encodeCesu8 cps).length
      · rw [if_pos hL] at hw'
        exact Option.noConfusion hw'
      · rw [if_neg hL] at hw'
        have hbv : bv = toBE 2 ((encodeCesu8 cps).length % 2 ^ 16) ++ encodeCesu8 cps :=
          (Option.some.inj hw').symm
        subst hbv
        have hL' : (encodeCesu8 cps).length ≤ 32767 := by
          rw [show NBT_MAX_NAME_LEN = 32767 from rfl] at hL
          omega
        have hv : ∀ c ∈ cps, ValidCp c := by cases hwf with | string _ h1 => exact h1
        refine ⟨0, ?_⟩
        intro st nm rest f
        rw [Nat.zero_add]
        show afterTag f st 8 nm
          ((toBE 2 ((encodeCesu8 cps).length % 2 ^ 16) ++ encodeCesu8 cps) ++ rest) = _
        rw [List.append_assoc,
          afterTag_atom f st 8 nm _ (.string cps) rest (by decide) (by decide) (by decide)
            (parseAtom_string cps hv hL' rest)]
  · -- intArray
    intro ia hwf d bv hw
    cases d with
    | zero => exact Option.noConfusion hw
    | succ d =>
      have hw' : (if NBT_MAX_LEN < ia.length then none
          else some (toBE 4 (ia.length % 2 ^ 32) ++
            (ia.map (fun i => toBE 4 (toUnsignedI 32 i))).flatten)) = some bv := hw
      by_cases hL : NBT_MAX_LEN < ia.length
      · rw [if_pos hL] at hw'
        exact Option.noConfusion hw'
      · rw [if_neg hL] at hw'
        have hbv : bv = toBE 4 (ia.length % 2 ^ 32) ++
            (ia.map (fun i => toBE 4 (toUnsignedI 32 i))).flatten := (Option.some.inj hw').symm
        subst hbv
        have hL' : ia.length ≤ 2147483647 := by
          rw [show NBT_MAX_LEN = 2147483647 from rfl] at hL
          omega
        have hr : ∀ i ∈ ia, -(2 ^ 31 : Int) ≤ i ∧ i < 2 ^ 31 := by
          cases hwf with
          | intArray _ h1 =>
            intro i hi
            have := h1 i hi
            constructor <;> omega
        refine ⟨0, ?_⟩
        intro st nm rest f
        rw [Nat.zero_add]
        show afterTag f st 11 nm ((toBE 4 (ia.length % 2 ^ 32) ++
          (ia.map (fun i => toBE 4 (toUnsignedI 32 i))).flatten) ++ rest) = _
        rw [List.append_assoc,
          afterTag_atom f st 11 nm _ (.intArray ia) rest (by decide) (by decide) (by decide)
            (parseAtom_intArray ia hr hL' rest)]
  · -- longArray
    intro la hwf d bv hw
    cases d with
    | zero => exact Option.noConfusion hw
    | succ d =>
      have hw' : (if NBT_MAX_LEN < la.length then none
          else some (toBE 4 (la.length % 2 ^ 32) ++
            (la.map (fun l => toBE 8 (toUnsignedI 64 l))).flatten)) = some bv := hw
      by_cases hL : NBT_MAX_LEN < la.length
      · rw [if_pos hL] at hw'
        exact Option.noConfusion hw'
      · rw [if_neg hL] at hw'
        have hbv : bv = toBE 4 (la.length % 2 ^ 32) ++
            (la.map (fun l => toBE 8 (toUnsignedI 64 l))).flatten := (Option.some.inj hw').symm
        subst hbv
        have hL' : la.length ≤ 2147483647 := by
          rw [show NBT_MAX_LEN = 2147483647 from rfl] at hL
          omega
        have hr : ∀ l ∈ la, -(2 ^ 63 : Int) ≤ l ∧ l < 2 ^ 63 := by
          cases hwf with
          | longArray _ h1 =>
            intro l hl
            have := h1 l hl
            constructor <;> omega
        refine ⟨0, ?_⟩
        intro st nm rest f
        rw [Nat.zero_add]
        show afterTag f st 12 nm ((toBE 4 (la.length % 2 ^ 32) ++
          (la.map (fun l => toBE 8 (toUnsignedI 64 l))).flatten) ++ rest) = _
        rw [List.append_assoc,
          afterTag_atom f st 12 nm _ (.longArray la) rest (by decide) (by decide) (by decide)
            (parseAtom_longArray la hr hL' rest)]
  · -- list
    intro vs hIH hwf d bv hw
    cases d with
    | zero => exact Option.noConfusion hw
    | succ d =>
      have hwfe : ∀ v ∈ vs, WfValue v := by cases hwf with | list _ h1 => exact h1
      cases vs with
      | nil =>
        have hw' : (some ([0] ++ toBE 4 0) : Option (List Nat)) = some bv := hw
        have hbv : bv = [0] ++ toBE 4 0 := (Option.some.inj hw').symm
        subst hbv
        refine ⟨0, ?_⟩
        intro st nm rest f
        rw [Nat.zero_add]
        show afterTag f st 9 nm (([0] ++ toBE 4 0) ++ rest) = _
        have hu : rdU8 (([0] ++ toBE 4 0) ++ rest) = some (0, toBE 4 0 ++ rest) := rfl
        have hl : length_fix_i32 (toBE 4 0 ++ rest) = some (0, rest) :=
          length_fix_i32_round 0 (by norm_num) rest
        rw [afterTag_list f st nm _ 0 _ 0 rest hu hl, if_pos rfl]
      | cons v0 t =>
        have hw' : (if NBT_MAX_LEN < (v0 :: t).length then none
            else (wGo d (Sum.inr (Sum.inl (type_id_for v0, v0 :: t)))).map fun es =>
              [type_id_for v0] ++ toBE 4 ((v0 :: t).length % 2 ^ 32) ++ es) = some bv := hw
        by_cases hML : NBT_MAX_LEN < (v0 :: t).length
        · rw [if_pos hML] at hw'
          exact Option.noConfusion hw'
        · rw [if_neg hML] at hw'
          cases hes : wGo d (Sum.inr (Sum.inl (type_id_for v0, v0 :: t))) with
          | none =>
            rw [hes] at hw'
            exact Option.noConfusion hw'
          | some es =>
            rw [hes] at hw'
            simp only [Option.map_some'] at hw'
            have hbv : bv = [type_id_for v0] ++ toBE 4 ((v0 :: t).length % 2 ^ 32) ++ es :=
              (Option.some.inj hw').symm
            subst hbv
            have hML' : (v0 :: t).length ≤ 2147483647 := by
              rw [show NBT_MAX_LEN = 2147483647 from rfl] at hML
              omega
            obtain ⟨F, hF⟩ :=
              list_elems_rt (type_id_for v0) (v0 :: t) hIH hwfe d es hes (by simp)
            refine ⟨F, ?_⟩
            intro st nm rest f
            show afterTag (F + f) st 9 nm
              (([type_id_for v0] ++ toBE 4 ((v0 :: t).length % 2 ^ 32) ++ es) ++ rest) = _
            have hu : rdU8 (([type_id_for v0] ++ toBE 4 ((v0 :: t).length % 2 ^ 32) ++ es)
                ++ rest) = some (type_id_for v0,
                  (toBE 4 ((v0 :: t).length % 2 ^ 32) ++ es) ++ rest) := rfl
            have hl : length_fix_i32 ((toBE 4 ((v0 :: t).length % 2 ^ 32) ++ es) ++ rest) =
                some ((v0 :: t).length, es ++ rest) := by
              rw [List.append_assoc]
              exact length_fix_i32_round (v0 :: t).length hML' (es ++ rest)
            rw [afterTag_list (F + f) st nm _ (type_id_for v0) _ ((v0 :: t).length)
              (es ++ rest) hu hl, if_neg (by simp),
              hF [] st nm ((v0 :: t).length) rest f (by simp), List.nil_append]
  · -- compound
    intro m hIH hwf d bv hw
    cases d with
    | zero => exact Option.noConfusion hw
    | succ d =>
      have hw' : (wGo d (Sum.inr (Sum.inr m))).map (fun es => es ++ [0]) = some bv := hw
      cases hes : wGo d (Sum.inr (Sum.inr m)) with
      | none =>
        rw [hes] at hw'
        exact Option.noConfusion hw'
      | some es =>
        rw [hes] at hw'
        simp only [Option.map_some'] at hw'
        have hbv : bv = es ++ [0] := (Option.some.inj hw').symm
        subst hbv
        obtain ⟨hnames, hvals, hnd⟩ : (∀ p ∈ m, WfName p.1) ∧ (∀ p ∈ m, WfValue p.2) ∧
            (m.map Prod.fst).Nodup := by
          cases hwf with | compound _ h1 h2 h3 => exact ⟨h1, h2, h3⟩
        obtain ⟨F, hF⟩ := comp_entries_rt m hIH (fun p hp => ⟨hnames p hp, hvals p hp⟩)
          hnd d es hes
        refine ⟨F, ?_⟩
        intro st nm rest f
        show afterTag (F + f) st 10 nm ((es ++ [0]) ++ rest) = _
        rw [afterTag_open_compound, List.append_assoc,
          hF [] st nm rest f (by simp), List.nil_append]

/-- C4: for every well-formed NBT value tree (integer ranges and IEEE
bit widths as carried by the Rust types, valid Unicode strings whose
CESU-8 encodings fit the i16 length prefixes, distinct compound keys)
and any recursion budget, if `BinaryWriter::nbt(name, value)` produces
`bytes` (the writer itself enforces list homogeneity and the array
length bounds), then `BinaryReader::nbt()` with sufficient loop fuel
parses `bytes ++ rest` back to exactly `(name, value)`, leaving `rest`
unconsumed — in the association-list model of the compound `HashMap`,
entry order is even preserved. -/
theorem c4_nbt_roundtrip (name : List Nat) (v : Value) (d : Nat) (bytes rest : List Nat)
    (hwf : WfValue v) (hname : WfName name) (hw : writeNbt d name v = some bytes) :
    ∃ F : Nat, ∀ f : Nat, F ≤ f → readNbt f (bytes ++ rest) = some ((name, v), rest) := by
  unfold writeNbt at hw
  by_cases hn : NBT_MAX_NAME_LEN < utf8Len name
  · rw [if_pos hn] at hw
    exact Option.noConfusion hw
  · rw [if_neg hn] at hw
    cases hb : wGo d (Sum.inl v) with
    | none =>
      rw [hb] at hw
      exact Option.noConfusion hw
    | some bv =>
      rw [hb] at hw
      simp only [Option.map_some'] at hw
      have hbytes : bytes = [type_id_for v] ++ toBE 2 ((encodeCesu8 name).length % 2 ^ 16) ++
          encodeCesu8 name ++ bv := (Option.some.inj hw).symm
      subst hbytes
      obtain ⟨F, hF⟩ := rtp_all v hwf d bv hb
      refine ⟨F + 1, ?_⟩
      intro f hf
      rw [show f = (F + (f - F - 1)) + 1 from by omega]
      unfold readNbt
      rw [nbtLoop_succ, tagRead_nil]
      have hby : (([type_id_for v] ++ toBE 2 ((encodeCesu8 name).length % 2 ^ 16) ++
          encodeCesu8 name ++ bv) ++ rest) =
          type_id_for v :: (toBE 2 ((encodeCesu8 name).length % 2 ^ 16) ++
            (encodeCesu8 name ++ (bv ++ rest))) := by
        simp [List.append_assoc]
      rw [hby, tag_name_round (type_id_for v) (type_id_ne_zero v) name hname.1 hname.2
        (bv ++ rest)]
      show afterTag (F + (f - F - 1)) [] (type_id_for v) name (bv ++ rest) = _
      rw [hF [] name rest (f - F - 1), contPush_emp]

/-- C4 witness: a compound `{"a": Byte 1}` named `"x"` written at
depth budget 3 yields the ten concrete bytes shown, and the theorem
applies to them. -/
theorem c4_nbt_roundtrip_witness :
    writeNbt 3 [120] (Value.compound [([97], Value.byte 1)]) =
      some [10, 0, 1, 120, 1, 0, 1, 97, 1, 0] ∧
    (∃ F : Nat, ∀ f : Nat, F ≤ f →
      readNbt f ([10, 0, 1, 120, 1, 0, 1, 97, 1, 0] ++ []) =
        some (([120], Value.compound [([97], Value.byte 1)]), [])) :=
  ⟨by decide,
    c4_nbt_roundtrip [120] (Value.compound [([97], Value.byte 1)]) 3
      [10, 0, 1, 120, 1, 0, 1, 97, 1, 0] []
      (WfValue.compound [([97], Value.byte 1)]
        (fun p hp => by
          simp at hp
          subst hp
          exact ⟨by decide, by decide⟩)
        (fun p hp => by
          simp at hp
          subst hp
          exact WfValue.byte 1 (by decide) (by decide))
        (by decide))
      ⟨by decide, by decide⟩
      (by decide)⟩

end Racemus
